import Mathlib

/-! N-tuple network weight tables and the TD slider agent

A shallow embedding of `weight.h` and of the `TD_slider` agent of `agent.h`.

* A `float` is the rational it stands for.  `weight.estimate_value`, `weight.update` and
  the operations of the agent built on them take the float operations in exact
  arithmetic; `weight.estimate_value_float` and `weight.update_float` take the float
  addition as a parameter, and `float_add` is the binary32 addition.
* `board::reward` is a 32-bit `int`; its sums are taken modulo `2^32`.
* A `std::vector<float>` of weights is a length together with a total content function;
  a read or write at an index that is not below the length is undefined behaviour in the
  source and makes the embedded operation return `none`.
* `board.h` and `action.h` are not among the sources.  A board is what the agent reads of
  it, the cell stored at each position; `board::slide` and the conversion of a `float` to
  `int` are parameters of the agent's operations.
* A stream is the list of its bytes.  The 32-bit pattern of a `float` is the platform's
  and is a parameter of the operations on the weight file.
-/

namespace TCG

/-! ## Boards -/

/-- A board, read through `b(position)` only. -/
abbrev board := Nat → Nat

/-! ## weight.h -/

/-- The source's `weight::gen_isomorphism`: the eight images of a position, the empty
vector for a position outside `0..15`. -/
def gen_isomorphism (position : Nat) : List Nat :=
  match position with
  | 0 => [0, 3, 15, 12, 3, 15, 12, 0]
  | 1 => [1, 7, 14, 8, 2, 11, 13, 4]
  | 2 => [2, 11, 13, 4, 1, 7, 14, 8]
  | 3 => [3, 15, 12, 0, 0, 3, 15, 12]
  | 4 => [4, 2, 11, 13, 7, 14, 8, 1]
  | 5 => [5, 6, 10, 9, 6, 10, 9, 5]
  | 6 => [6, 10, 9, 5, 5, 6, 10, 9]
  | 7 => [7, 14, 8, 1, 4, 2, 11, 13]
  | 8 => [8, 1, 7, 14, 11, 13, 4, 2]
  | 9 => [9, 5, 6, 10, 10, 9, 5, 6]
  | 10 => [10, 9, 5, 6, 9, 5, 6, 10]
  | 11 => [11, 13, 4, 2, 8, 1, 7, 14]
  | 12 => [12, 0, 3, 15, 15, 12, 0, 3]
  | 13 => [13, 4, 2, 11, 14, 8, 1, 7]
  | 14 => [14, 8, 1, 7, 13, 4, 2, 11]
  | 15 => [15, 12, 0, 3, 12, 0, 3, 15]
  | _ => []

/-- The class `weight`: the vector `value` (its length `size` and its contents), the
vector of isomorphic patterns and the pattern. -/
structure weight where
  size : Nat
  value : Nat → ℚ
  isomorphism : List (List Nat)
  pattern : List Nat

/-- The expression `1 << (patn.size() << 2)` of the constructor.  The left operand is a
32-bit `int`: up to 7 positions the shift count is at most 28 and the value is
`16^size`.  From 8 positions on the shift count is 32 or more, which C++ leaves
undefined; the count is then taken modulo 32, as the shift instruction of the machine
does. -/
def value_size (patn_size : Nat) : Nat := 1 <<< ((patn_size <<< 2) % 32)

/-- Inner loop of the constructor: `iso_patn.emplace_back(gen_isomorphism(position)[iso_type])`
for every position of the pattern.  Indexing past the end of the returned vector is
undefined, hence `none`. -/
def iso_patn_loop (iso_type : Nat) : List Nat → Option (List Nat)
  | [] => some []
  | position :: rest =>
    match (gen_isomorphism position)[iso_type]? with
    | none => none
    | some image =>
      match iso_patn_loop iso_type rest with
      | none => none
      | some iso_patn => some (image :: iso_patn)

/-- Outer loop of the constructor over the given symmetry indices:
`isomorphism.emplace_back(iso_patn)`. -/
def isomorphism_loop (pattern : List Nat) : List Nat → Option (List (List Nat))
  | [] => some []
  | iso_type :: rest =>
    match iso_patn_loop iso_type pattern with
    | none => none
    | some iso_patn =>
      match isomorphism_loop pattern rest with
      | none => none
      | some isomorphism => some (iso_patn :: isomorphism)

/-- The constructor `weight::weight(const std::vector<int>& patn)`: a zero-filled array of
`value_size` entries and the isomorphic patterns for `iso_type = 0..7`. -/
def weight.construct (patn : List Nat) : Option weight :=
  match isomorphism_loop patn (List.range 8) with
  | none => none
  | some isomorphism =>
    some { size := value_size patn.length, value := fun _ => 0,
           isomorphism := isomorphism, pattern := patn }

/-- The index loop shared by `estimate_value` and `update`:
`value_index |= board_value << (i << 2)` for `i = 0 .. iso_patn.size() - 1`; the second
argument is the loop counter `i`, the third the running `value_index`.  The source keeps
`value_index` in a 32-bit `int`; with at most 7 positions and cells in `[0,15]` it stays
below `2^28`, and no wrap-around is modelled beyond that range. -/
def value_index_loop (b : board) : List Nat → Nat → Nat → Nat
  | [], _, value_index => value_index
  | position :: rest, i, value_index =>
    value_index_loop b rest (i + 1) (value_index ||| (b position <<< (i <<< 2)))

/-- The composite index computed for one isomorphic pattern (`value_index` starts at 0). -/
def value_index (b : board) (iso_patn : List Nat) : Nat := value_index_loop b iso_patn 0 0

/-- Loop of `weight::estimate_value` over the isomorphic patterns, `sum` being the
accumulator: `sum += value[value_index]`. -/
def estimate_value_loop (size : Nat) (value : Nat → ℚ) (b : board) :
    List (List Nat) → ℚ → Option ℚ
  | [], sum => some sum
  | iso_patn :: rest, sum =>
    if value_index b iso_patn < size then
      estimate_value_loop size value b rest (sum + value (value_index b iso_patn))
    else none

/-- The source's `weight::estimate_value` (a `const` member: it yields a number only). -/
def weight.estimate_value (w : weight) (b : board) : Option ℚ :=
  estimate_value_loop w.size w.value b w.isomorphism 0

/-- Loop of `weight::update` over the isomorphic patterns:
`value[value_index] += delta; sum += value[value_index]`. -/
def update_loop (size : Nat) (b : board) (delta : ℚ) :
    List (List Nat) → (Nat → ℚ) → ℚ → Option ((Nat → ℚ) × ℚ)
  | [], value, sum => some (value, sum)
  | iso_patn :: rest, value, sum =>
    if value_index b iso_patn < size then
      let value1 :=
        Function.update value (value_index b iso_patn) (value (value_index b iso_patn) + delta)
      update_loop size b delta rest value1 (sum + value1 (value_index b iso_patn))
    else none

/-- The source's `weight::update`: the table after the call and the returned sum. -/
def weight.update (w : weight) (b : board) (delta : ℚ) : Option (weight × ℚ) :=
  match update_loop w.size b delta w.isomorphism w.value 0 with
  | none => none
  | some (value, sum) => some ({ w with value := value }, sum)

/-- The table `w` is one built by the constructor from `patn`: it has the length, the
isomorphic patterns and the pattern the constructor gives; its array may hold anything. -/
def weight.built_from (w : weight) (patn : List Nat) : Prop :=
  ∃ w0, weight.construct patn = some w0 ∧ w.size = w0.size ∧
    w.isomorphism = w0.isomorphism ∧ w.pattern = w0.pattern

/-- The composite indices of the isomorphic patterns of a table on a board, in the order
in which `estimate_value` and `update` compute them. -/
def weight.indices (w : weight) (b : board) : List Nat := w.isomorphism.map (value_index b)

/-! ## agent.h: the TD slider -/

/-- An `action` as the agent builds it (`action.h` is not among the sources): the
default action `action()` or `action::slide(op)`. -/
inductive action where
  | default_action : action
  | slide (op : Nat) : action
  deriving DecidableEq

/-- The record `TD_slider::state`. -/
structure state where
  before : board
  after : board
  op : Int
  reward : ℚ
  value : ℚ

/-- The data members of `TD_slider` that its operations use: the network `net`, the
learning rate `alpha` and the trajectory `state_record` (the back of the vector is the
last element of the list). -/
structure TD_slider where
  net : List weight
  alpha : ℚ
  state_record : List state

/-- The member `opcode`, set to `{0, 1, 2, 3}` by the constructor. -/
def opcode : List Nat := [0, 1, 2, 3]

/-- The constant `INT_MIN` of a 32-bit `int`. -/
def INT_MIN : Int := -2147483648

/-- A result of `int` arithmetic brought back to 32 bits, two's complement: signed
overflow is undefined in C++, and the machine wraps around. -/
def wrap_int (z : Int) : Int := (z + 2147483648) % 4294967296 - 2147483648

/-- Loop of `TD_slider::estimate_board` over the tables: `value += w.estimate_value(b)`. -/
def estimate_board_loop (b : board) : List weight → ℚ → Option ℚ
  | [], value => some value
  | w :: rest, value =>
    match w.estimate_value b with
    | none => none
    | some e => estimate_board_loop b rest (value + e)

/-- The source's `TD_slider::estimate_board` (a `const` member), on the network. -/
def estimate_board (net : List weight) (b : board) : Option ℚ :=
  estimate_board_loop b net 0

/-- Loop of `TD_slider::weight_update` over the tables, which are updated in place:
`value += patn.update(b, delta)`. -/
def weight_update_loop (b : board) (delta : ℚ) : List weight → ℚ → Option (List weight × ℚ)
  | [], value => some ([], value)
  | patn :: rest, value =>
    match patn.update b delta with
    | none => none
    | some (patn1, r) =>
      match weight_update_loop b delta rest (value + r) with
      | none => none
      | some (rest1, value1) => some (patn1 :: rest1, value1)

/-- The source's `TD_slider::weight_update`, on the network: the network after the call
and the returned value; `delta = diff / net.size()`. -/
def weight_update (net : List weight) (b : board) (diff : ℚ) : Option (List weight × ℚ) :=
  weight_update_loop b (diff / (net.length : ℚ)) net 0

/-- Body of the loop of `TD_slider::episode_update`, run over the records still stored,
listed from the back of the vector: `board_act` is `state_record.back()` and the step of
the loop pops it.  The state of the loop is the network, `reward_afterstate_sum` and,
as a ghost variable, the list of the calls made to `weight_update` (board and second
argument), in the order of the calls. -/
def episode_update_loop (alpha : ℚ) :
    List state → List weight → ℚ → List (board × ℚ) → Option (List weight × ℚ × List (board × ℚ))
  | [], net, reward_afterstate_sum, calls => some (net, reward_afterstate_sum, calls)
  | board_act :: rest, net, reward_afterstate_sum, calls =>
    let diff := reward_afterstate_sum - (board_act.value - board_act.reward)
    match weight_update net board_act.after (alpha * diff) with
    | none => none
    | some (net1, r) =>
      episode_update_loop alpha rest net1 (board_act.reward + r)
        (calls ++ [(board_act.after, alpha * diff)])

/-- The source's `TD_slider::episode_update`:
`for (state_record.pop_back(); state_record.size(); state_record.pop_back())`.
The initialisation pops the back of the vector; on an empty vector that is undefined,
hence `none`.  The result is the agent after the call and the calls made to
`weight_update`. -/
def TD_slider.episode_update (s : TD_slider) : Option (TD_slider × List (board × ℚ)) :=
  match s.state_record.reverse with
  | [] => none
  | _ :: rest =>
    match episode_update_loop s.alpha rest s.net 0 [] with
    | none => none
    | some (net1, _, calls) => some ({ s with net := net1, state_record := [] }, calls)

/-- The local variables of `TD_slider::take_action` that live across its loop. -/
structure take_action_vars where
  after_boards : List board
  max_op : Int
  best_reward : Int
  best_slide_reward : Int

/-- Loop of `TD_slider::take_action` over the operations.  `board::reward` is `int` (the
loop starts `best_reward` at `INT_MIN`): the locals `slide_reward`, `estimate_value`,
`best_reward` and `best_slide_reward` are 32-bit integers, and the sum
`estimate_value + slide_reward` is an `int` sum, here `wrap_int` of the exact sum.
`slide b op` is `board::slide` (the board after the slide and the returned reward) and
`to_reward` is the conversion of the `float` returned by `estimate_board` to `int` on
assignment to `estimate_value` (truncation toward zero when the result fits, undefined
otherwise); both are parameters. -/
def take_action_loop (to_reward : ℚ → Int) (slide : board → Nat → board × Int)
    (net : List weight) (before : board) :
    List Nat → take_action_vars → Option take_action_vars
  | [], v => some v
  | op :: rest, v =>
    match (v.after_boards ++ [before])[op]? with
    | none => none
    | some copy =>
      let after_boards := (v.after_boards ++ [before]).set op (slide copy op).1
      let slide_reward := (slide copy op).2
      if slide_reward ≠ -1 then
        match estimate_board net (slide copy op).1 with
        | none => none
        | some e =>
          let estimate_value := to_reward e
          if wrap_int (estimate_value + slide_reward) > v.best_reward then
            take_action_loop to_reward slide net before rest
              { after_boards := after_boards, max_op := op,
                best_reward := wrap_int (estimate_value + slide_reward),
                best_slide_reward := slide_reward }
          else take_action_loop to_reward slide net before rest
              { v with after_boards := after_boards }
      else take_action_loop to_reward slide net before rest
          { v with after_boards := after_boards }

/-- The record `board_state` that `take_action` fills in when `max_op != -1`. -/
def take_action_record (before : board) (v : take_action_vars) (after : board) : state :=
  { before := before, after := after, op := v.max_op,
    reward := (v.best_slide_reward : ℚ), value := (v.best_reward : ℚ) }

/-- The source's `TD_slider::take_action`: the returned action and the agent after the
call.  `best_slide_reward` is not initialised in the source and is read only after it
has been assigned; it starts at 0 here.  The record `board_state` is a local of the
branch `max_op != -1`: it is filled in and goes out of scope at the `return`. -/
def TD_slider.take_action (to_reward : ℚ → Int) (slide : board → Nat → board × Int)
    (s : TD_slider) (before : board) : Option (action × TD_slider) :=
  match take_action_loop to_reward slide s.net before opcode
      { after_boards := [], max_op := -1, best_reward := INT_MIN, best_slide_reward := 0 } with
  | none => none
  | some v =>
    if v.max_op ≠ -1 then
      match v.after_boards[v.max_op.toNat]? with
      | none => none
      | some after =>
        let _board_state : state := take_action_record before v after
        some (action.slide v.max_op.toNat, s)
    else some (action.default_action, s)

/-! ## The operations as the specification words them -/

/-- One call `update(board, delta)` on each table, in table order: the list of the
results (updated table, returned value), or `none` when one of the calls is undefined. -/
def update_each (b : board) (delta : ℚ) : List weight → Option (List (weight × ℚ))
  | [] => some []
  | w :: rest =>
    match w.update b delta, update_each b delta rest with
    | some r, some rs => some (r :: rs)
    | _, _ => none

/-- One call `estimate_value(board)` on each table, in table order: the list of the
returned values. -/
def estimate_each (b : board) : List weight → Option (List ℚ)
  | [] => some []
  | w :: rest =>
    match w.estimate_value b, estimate_each b rest with
    | some e, some es => some (e :: es)
    | _, _ => none

/-- The board whose cells are all 0. -/
def zero_board : board := fun _ => 0

/-- A board without symmetry: the cell at position `p` holds `p mod 16`. -/
def ramp_board : board := fun p => p % 16

/-- No read or write of `estimate_value` or `update` on board `b` falls outside the
array of a table of the network. -/
def in_bounds (net : List weight) (b : board) : Prop :=
  ∀ w ∈ net, ∀ s ∈ w.indices b, s < w.size

/-- Every table of the network is one built by the constructor from a pattern of at most
7 positions in `0..15`. -/
def built_net (net : List weight) : Prop :=
  ∀ w ∈ net, ∃ patn : List Nat, (∀ p ∈ patn, p < 16) ∧ patn.length ≤ 7 ∧ w.built_from patn

/-- The table the constructor builds from pattern `[1]`. -/
def table_1 : weight :=
  (weight.construct [1]).getD { size := 0, value := fun _ => 0, isomorphism := [], pattern := [] }

/-- First record of the two-step trajectory of the specification: `r_0 = 2`, `V_0 = 5`. -/
def record_0 : state :=
  { before := zero_board, after := ramp_board, op := 0, reward := 2, value := 5 }

/-- Second record of the two-step trajectory of the specification: `r_1 = 3`, `V_1 = 4`. -/
def record_1 : state :=
  { before := ramp_board, after := zero_board, op := 1, reward := 3, value := 4 }

/-- The value `take_action` compares for operation `op`: the `int` sum
`estimate_value + slide_reward`, where `e op` is what `estimate_board` returns on the
afterstate of `op`. -/
def candidate_value (to_reward : ℚ → Int) (slide : board → Nat → board × Int) (before : board)
    (e : Nat → ℚ) (op : Nat) : Int :=
  wrap_int (to_reward (e op) + (slide before op).2)

/-- The state of the loop of `take_action` once the operations below `k` are done: the
afterstates computed so far, and either no operation retained (every legal one has a
value not above `INT_MIN`) or the retained operation `m`, the lowest-numbered one of
greatest value. -/
def take_action_inv (to_reward : ℚ → Int) (slide : board → Nat → board × Int) (before : board)
    (e : Nat → ℚ) (k : Nat) (v : take_action_vars) : Prop :=
  v.after_boards = (List.range k).map (fun j => (slide before j).1) ∧
  ((v.max_op = -1 ∧ v.best_reward = INT_MIN ∧
      ∀ op, op < k → (slide before op).2 ≠ -1 →
        candidate_value to_reward slide before e op ≤ INT_MIN) ∨
    ∃ m, m < k ∧ v.max_op = (m : Int) ∧ (slide before m).2 ≠ -1 ∧
      v.best_reward = candidate_value to_reward slide before e m ∧
      v.best_slide_reward = (slide before m).2 ∧
      INT_MIN < candidate_value to_reward slide before e m ∧
      (∀ op, op < k → (slide before op).2 ≠ -1 →
        candidate_value to_reward slide before e op
          ≤ candidate_value to_reward slide before e m) ∧
      (∀ op, op < m → (slide before op).2 ≠ -1 →
        candidate_value to_reward slide before e op
          < candidate_value to_reward slide before e m))

/-- A stand-in for `board::slide` on concrete inputs: the board is left as it is,
operations 1 and 2 are legal with reward 3, operations 0 and 3 are illegal. -/
def example_slide : board → Nat → board × Int :=
  fun b op => (b, if op = 1 ∨ op = 2 then 3 else -1)

/-- The conversion of a `float` to `int`: truncation toward zero. -/
def trunc_reward (x : ℚ) : Int := if 0 ≤ x then ⌊x⌋ else ⌈x⌉

/-- The board `b` seen through the `k`-th symmetry: `b_k(p) = b(gen_isomorphism(p)[k])`. -/
def transformed_board (b : board) (k : Nat) : board :=
  fun p => b ((gen_isomorphism p).getD k 0)

/-- The index `m` of the symmetry that is the `i`-th image followed by the `k`-th one:
`gen_isomorphism(gen_isomorphism(p)[i])[k] = gen_isomorphism(p)[m]` on the 16 positions,
found by search among the 8 indices. -/
def compose_index (k i : Nat) : Nat :=
  ((List.range 8).find? fun m => (List.range 16).all fun p =>
    (gen_isomorphism ((gen_isomorphism p).getD i 0)).getD k 0
      == (gen_isomorphism p).getD m 0).getD 0

/-- The table built from pattern `[1]` with array contents `value[s] = s`. -/
def count_table : weight := { table_1 with value := fun s => (s : ℚ) }

/-! ## Streams and the weight file -/

/-- The `count` bytes of the object representation of the unsigned integer `x`, in memory
order; the host is taken little-endian, least significant byte first. -/
def le_bytes : Nat → Nat → List Nat
  | 0, _ => []
  | count + 1, x => x % 256 :: le_bytes count (x / 256)

/-- The unsigned integer whose object representation is the given bytes. -/
def le_value : List Nat → Nat
  | [] => 0
  | byte :: rest => byte + 256 * le_value rest

/-- The memory of `count` consecutive entries of a `std::vector<float>`, from the entry
of index `first`: 4 bytes per entry.  `float_bits` gives the 32-bit pattern of a `float`;
it belongs to the platform and is a parameter. -/
def value_bytes (float_bits : ℚ → Nat) (value : Nat → ℚ) : Nat → Nat → List Nat
  | _, 0 => []
  | first, count + 1 =>
    le_bytes 4 (float_bits (value first)) ++ value_bytes float_bits value (first + 1) count

/-- The source's `operator <<(std::ostream&, const weight&)`, the output stream being the
list of the bytes written so far: `uint64_t size = value.size()`, then `size` as 8 bytes,
then `sizeof(type) * size` bytes from `value.data()`. -/
def operator_out (float_bits : ℚ → Nat) (out : List Nat) (w : weight) : List Nat :=
  out ++ le_bytes 8 (w.size % 2 ^ 64)
    ++ (value_bytes float_bits w.value 0 w.size).take ((4 * (w.size % 2 ^ 64)) % 2 ^ 64)

/-- An input stream: the bytes not yet extracted, and whether no error flag is set. -/
structure istream where
  bytes : List Nat
  good : Bool

/-- The call `in.read(buffer, count)`: the bytes stored at the start of the buffer and
the stream after the call.  Nothing is extracted from a stream that is not good; when
fewer than `count` bytes are left they are all extracted and the stream fails. -/
def istream.read (s : istream) (count : Nat) : List Nat × istream :=
  if s.good then
    (s.bytes.take count, { bytes := s.bytes.drop count, good := decide (count ≤ s.bytes.length) })
  else ([], s)

/-- The source's `operator >>(std::istream&, weight&)`: `size` starts at 0 and is
overwritten by the 8 bytes read, `value.resize(size)` keeps the old entries below the new
length and zero-fills the others, and the bytes read next overwrite the start of the
memory of the vector.  `bits_float` gives the `float` of a 32-bit pattern.  The
isomorphic patterns and the pattern of `w` are not touched. -/
def operator_in (float_bits : ℚ → Nat) (bits_float : Nat → ℚ) (s : istream) (w : weight) :
    istream × weight :=
  let header := s.read 8
  let size := le_value (header.1 ++ (le_bytes 8 0).drop header.1.length)
  let resized : Nat → ℚ := fun i => if i < w.size then w.value i else 0
  let payload := header.2.read ((4 * size) % 2 ^ 64)
  let memory := payload.1 ++ (value_bytes float_bits resized 0 size).drop payload.1.length
  (payload.2,
    { w with
      size := size
      value := fun i =>
        if payload.1.length ≤ 4 * i then resized i
        else bits_float (le_value ((memory.drop (4 * i)).take 4)) })

/-- The default constructor `weight() {}`: empty vectors. -/
def default_weight : weight :=
  { size := 0, value := fun _ => 0, isomorphism := [], pattern := [] }

/-- The call `net.resize(size)` on the network: the first `size` tables are kept and
default-constructed tables are appended up to `size`. -/
def resize_net (net : List weight) (size : Nat) : List weight :=
  net.take size ++ List.replicate (size - net.length) default_weight

/-- Loop of `load_weights`: `for (weight& w : net) in >> w`. -/
def load_weights_loop (float_bits : ℚ → Nat) (bits_float : Nat → ℚ) :
    List weight → istream → istream × List weight
  | [], s => (s, [])
  | w :: rest, s =>
    let r := operator_in float_bits bits_float s w
    let r2 := load_weights_loop float_bits bits_float rest r.1
    (r2.1, r.2 :: r2.2)

/-- The source's `weight_agent::load_weights` on a file that could be opened, `file`
being its contents: the network after the call.  The local `uint32_t size` is not
initialised in the source; the bytes of it that a short read leaves untouched are taken
as 0. -/
def load_weights (float_bits : ℚ → Nat) (bits_float : Nat → ℚ) (file : List Nat)
    (net : List weight) : List weight :=
  let header := istream.read { bytes := file, good := true } 4
  let size := le_value (header.1 ++ (le_bytes 4 0).drop header.1.length)
  (load_weights_loop float_bits bits_float (resize_net net size) header.2).2

/-- Loop of `save_weights`: `for (weight& w : net) out << w`. -/
def save_weights_loop (float_bits : ℚ → Nat) : List weight → List Nat → List Nat
  | [], out => out
  | w :: rest, out => save_weights_loop float_bits rest (operator_out float_bits out w)

/-- The source's `weight_agent::save_weights` on a file that could be opened: the
contents of the file after the call (it is truncated on opening).
`uint32_t size = net.size()` is written first, as 4 bytes. -/
def save_weights (float_bits : ℚ → Nat) (net : List weight) : List Nat :=
  save_weights_loop float_bits net (le_bytes 4 (net.length % 2 ^ 32))

/-- The source's `TD_slider::init_weights`: four tables are appended to the network. -/
def init_weights (net : List weight) : Option (List weight) :=
  match weight.construct [0, 1, 2, 3, 4, 5], weight.construct [4, 5, 6, 7, 8, 9],
    weight.construct [0, 1, 2, 4, 5, 6], weight.construct [4, 5, 6, 8, 9, 10] with
  | some w0, some w1, some w2, some w3 => some (net ++ [w0, w1, w2, w3])
  | _, _, _, _ => none

/-- The record of one table as the specification words it: the entry count as 8 bytes,
then 4 bytes for each entry. -/
def table_record (float_bits : ℚ → Nat) (w : weight) : List Nat :=
  le_bytes 8 w.size ++ value_bytes float_bits w.value 0 w.size

/-- The 32-bit patterns (IEEE 754 binary32) of the floats 0, 1 and 8; any other value
is sent to the pattern of a NaN. -/
def example_float_bits (x : ℚ) : Nat :=
  if x = 0 then 0 else if x = 1 then 1065353216 else if x = 8 then 1090519040
  else 2143289344

/-- The floats of the 32-bit patterns of 1 and 8; any other pattern is sent to 0. -/
def example_bits_float (n : Nat) : ℚ :=
  if n = 1065353216 then 1 else if n = 1090519040 then 8 else 0

/-- A table with a two-entry array holding 8 and 1. -/
def small_table : weight :=
  { size := 2, value := fun i => if i = 0 then 8 else 1, isomorphism := [], pattern := [] }

/-! ## Float addition -/

/-- Rounding of a rational to the nearest integer, a tie going to the even one. -/
def round_even (y : ℚ) : Int :=
  if y - ⌊y⌋ < 1 / 2 then ⌊y⌋
  else if 1 / 2 < y - ⌊y⌋ then ⌊y⌋ + 1
  else if ⌊y⌋ % 2 = 0 then ⌊y⌋ else ⌊y⌋ + 1

/-- The `float` (IEEE 754 binary32) nearest to a rational, a tie going to the even
significand: 24 significant bits, the unit in the last place never below `2^-149`.
Overflow to infinity is left out: beyond the largest `float` the rounding goes on with 24
significant bits. -/
def round_binary32 (x : ℚ) : ℚ :=
  if x = 0 then 0
  else (round_even (x / 2 ^ (max (Int.log 2 |x|) (-126) - 23)) : ℚ)
    * 2 ^ (max (Int.log 2 |x|) (-126) - 23)

/-- The sum of two `float`s as the machine computes it: the exact sum, rounded. -/
def float_add (x y : ℚ) : ℚ := round_binary32 (x + y)

/-- Loop of `weight::estimate_value` with the addition of `sum += value[value_index]`
made explicit: `fadd x y` is the `float` that `x + y` evaluates to.
`estimate_value_loop` is the case of exact addition. -/
def estimate_value_loop_float (fadd : ℚ → ℚ → ℚ) (size : Nat) (value : Nat → ℚ) (b : board) :
    List (List Nat) → ℚ → Option ℚ
  | [], sum => some sum
  | iso_patn :: rest, sum =>
    if value_index b iso_patn < size then
      estimate_value_loop_float fadd size value b rest (fadd sum (value (value_index b iso_patn)))
    else none

/-- The source's `weight::estimate_value` with the `float` addition `fadd`. -/
def weight.estimate_value_float (fadd : ℚ → ℚ → ℚ) (w : weight) (b : board) : Option ℚ :=
  estimate_value_loop_float fadd w.size w.value b w.isomorphism 0

/-- Loop of `weight::update` with the additions of `value[value_index] += delta` and
`sum += value[value_index]` made explicit: `fadd x y` is the `float` that `x + y`
evaluates to.  `update_loop` is the case of exact addition. -/
def update_loop_float (fadd : ℚ → ℚ → ℚ) (size : Nat) (b : board) (delta : ℚ) :
    List (List Nat) → (Nat → ℚ) → ℚ → Option ((Nat → ℚ) × ℚ)
  | [], value, sum => some (value, sum)
  | iso_patn :: rest, value, sum =>
    if value_index b iso_patn < size then
      let value1 :=
        Function.update value (value_index b iso_patn)
          (fadd (value (value_index b iso_patn)) delta)
      update_loop_float fadd size b delta rest value1 (fadd sum (value1 (value_index b iso_patn)))
    else none

/-- The source's `weight::update` with the `float` addition `fadd`: the table after the
call and the returned sum. -/
def weight.update_float (fadd : ℚ → ℚ → ℚ) (w : weight) (b : board) (delta : ℚ) :
    Option (weight × ℚ) :=
  match update_loop_float fadd w.size b delta w.isomorphism w.value 0 with
  | none => none
  | some (value, sum) => some ({ w with value := value }, sum)

/-! ## Lemmas on the weight table -/

theorem gen_isomorphism_getElem (p i : Nat) (hp : p < 16) (hi : i < 8) :
    (gen_isomorphism p)[i]? = some ((gen_isomorphism p).getD i 0) ∧
      (gen_isomorphism p).getD i 0 < 16 := by
  interval_cases p <;> interval_cases i <;> exact ⟨rfl, by decide⟩

theorem iso_patn_loop_eq (i : Nat) (hi : i < 8) (patn : List Nat) (hp : ∀ p ∈ patn, p < 16) :
    iso_patn_loop i patn = some (patn.map fun p => (gen_isomorphism p).getD i 0) := by
  induction patn with
  | nil => rfl
  | cons p rest ih =>
    have h1 := (gen_isomorphism_getElem p i (hp p (List.mem_cons_self _ _)) hi).1
    have h2 := ih (fun q hq => hp q (List.mem_cons_of_mem _ hq))
    simp only [iso_patn_loop, h1, h2, List.map_cons]

theorem isomorphism_loop_eq (patn : List Nat) (hp : ∀ p ∈ patn, p < 16) (l : List Nat)
    (hl : ∀ i ∈ l, i < 8) :
    isomorphism_loop patn l
      = some (l.map fun i => patn.map fun p => (gen_isomorphism p).getD i 0) := by
  induction l with
  | nil => rfl
  | cons i rest ih =>
    have h1 := iso_patn_loop_eq i (hl i (List.mem_cons_self _ _)) patn hp
    have h2 := ih (fun q hq => hl q (List.mem_cons_of_mem _ hq))
    simp only [isomorphism_loop, h1, h2, List.map_cons]

theorem value_size_eq (L : Nat) (hL : L ≤ 7) : value_size L = 16 ^ L := by
  interval_cases L <;> decide

theorem construct_eq (patn : List Nat) (hp : ∀ p ∈ patn, p < 16) :
    weight.construct patn = some
      { size := value_size patn.length, value := fun _ => 0,
        isomorphism := (List.range 8).map fun i => patn.map fun p => (gen_isomorphism p).getD i 0,
        pattern := patn } := by
  have h := isomorphism_loop_eq patn hp (List.range 8) (by simp)
  simp [weight.construct, h]

theorem built_from_iff (w : weight) (patn : List Nat) (hp : ∀ p ∈ patn, p < 16) :
    w.built_from patn ↔ w.size = value_size patn.length ∧
      w.isomorphism = ((List.range 8).map fun i => patn.map fun p => (gen_isomorphism p).getD i 0)
      ∧ w.pattern = patn := by
  unfold weight.built_from
  rw [construct_eq patn hp]
  constructor
  · rintro ⟨w0, h0, h1, h2, h3⟩
    cases h0
    exact ⟨h1, h2, h3⟩
  · rintro ⟨h1, h2, h3⟩
    exact ⟨_, rfl, h1, h2, h3⟩

theorem lor_shift_eq (acc c i : Nat) (hacc : acc < 16 ^ i) :
    acc ||| (c <<< (i <<< 2)) = acc + c * 16 ^ i := by
  have h16 : (16 : Nat) ^ i = 2 ^ (i <<< 2) := by
    rw [Nat.shiftLeft_eq, show (16 : Nat) = 2 ^ 2 ^ 2 by norm_num, ← pow_mul, mul_comm]
  rw [h16] at hacc ⊢
  rw [Nat.shiftLeft_eq, Nat.lor_comm, mul_comm c, ← Nat.mul_add_lt_is_or hacc, add_comm]

theorem value_index_loop_eq (b : board) (l : List Nat) (hb : ∀ p ∈ l, b p ≤ 15) :
    ∀ i acc, acc < 16 ^ i →
      value_index_loop b l i acc
          = acc + ∑ j in Finset.range l.length, b (l.getD j 0) * 16 ^ (i + j) ∧
        value_index_loop b l i acc < 16 ^ (i + l.length) := by
  induction l with
  | nil => intro i acc h; simpa [value_index_loop] using h
  | cons p rest ih =>
    intro i acc h
    have hp : b p ≤ 15 := hb p (List.mem_cons_self _ _)
    have hacc : acc + b p * 16 ^ i < 16 ^ (i + 1) := by
      have : b p * 16 ^ i ≤ 15 * 16 ^ i := Nat.mul_le_mul_right _ hp
      rw [pow_succ]; omega
    obtain ⟨h1, h2⟩ := ih (fun q hq => hb q (List.mem_cons_of_mem _ hq)) (i + 1) _ hacc
    simp only [value_index_loop, lor_shift_eq acc (b p) i h, List.length_cons]
    refine ⟨?_, ?_⟩
    · rw [h1, Finset.sum_range_succ']
      simp only [List.getD_cons_succ, List.getD_cons_zero, add_zero]
      have : ∀ j, i + 1 + j = i + (j + 1) := fun j => by omega
      simp only [this]
      ring
    · have : i + (rest.length + 1) = i + 1 + rest.length := by omega
      rw [this]; exact h2

theorem value_index_eq (b : board) (l : List Nat) (hb : ∀ p ∈ l, b p ≤ 15) :
    value_index b l = ∑ j in Finset.range l.length, b (l.getD j 0) * 16 ^ j ∧
      value_index b l < 16 ^ l.length := by
  have h := value_index_loop_eq b l hb 0 0 (by norm_num)
  simpa [value_index] using h

theorem estimate_value_loop_eq (size : Nat) (value : Nat → ℚ) (b : board)
    (isos : List (List Nat)) (h : ∀ p ∈ isos, value_index b p < size) :
    ∀ sum, estimate_value_loop size value b isos sum
      = some (sum + (isos.map fun p => value (value_index b p)).sum) := by
  induction isos with
  | nil => intro sum; simp [estimate_value_loop]
  | cons p rest ih =>
    intro sum
    have hp := h p (List.mem_cons_self _ _)
    simp [estimate_value_loop, hp, ih (fun q hq => h q (List.mem_cons_of_mem _ hq)), add_assoc]

theorem value_index_image (patn : List Nat) (b : board) (hp : ∀ p ∈ patn, p < 16)
    (hb : ∀ p, p < 16 → b p ≤ 15) (i : Nat) (hi : i < 8) :
    value_index b (patn.map fun p => (gen_isomorphism p).getD i 0)
        = ∑ j in Finset.range patn.length,
            b ((gen_isomorphism (patn.getD j 0)).getD i 0) * 16 ^ j ∧
      value_index b (patn.map fun p => (gen_isomorphism p).getD i 0) < 16 ^ patn.length := by
  have hcells : ∀ q ∈ patn.map (fun p => (gen_isomorphism p).getD i 0), b q ≤ 15 := by
    intro q hq
    obtain ⟨p, hp1, rfl⟩ := List.mem_map.1 hq
    exact hb _ (gen_isomorphism_getElem p i (hp p hp1) hi).2
  obtain ⟨h1, h2⟩ := value_index_eq b _ hcells
  rw [List.length_map] at h1 h2
  refine ⟨?_, h2⟩
  rw [h1]
  refine Finset.sum_congr rfl fun j hj => ?_
  have hj1 : j < patn.length := Finset.mem_range.1 hj
  have hj2 : j < (patn.map fun p => (gen_isomorphism p).getD i 0).length := by
    rw [List.length_map]; exact hj1
  rw [List.getD_eq_getElem _ _ hj2, List.getD_eq_getElem _ _ hj1, List.getElem_map]

/-- On a table built from a valid pattern and a board with 4-bit cells, the computed
indices are the packed sums, and every one of them is below the array length. -/
theorem indices_eq (patn : List Nat) (w : weight) (b : board) (hp : ∀ p ∈ patn, p < 16)
    (hL : patn.length ≤ 7) (hw : w.built_from patn) (hb : ∀ p, p < 16 → b p ≤ 15) :
    w.indices b = ((List.range 8).map fun i => ∑ j in Finset.range patn.length,
        b ((gen_isomorphism (patn.getD j 0)).getD i 0) * 16 ^ j) ∧
      ∀ s ∈ w.indices b, s < w.size := by
  obtain ⟨hsize, hiso, -⟩ := (built_from_iff w patn hp).1 hw
  have h1 : w.indices b = ((List.range 8).map fun i => ∑ j in Finset.range patn.length,
        b ((gen_isomorphism (patn.getD j 0)).getD i 0) * 16 ^ j) := by
    unfold weight.indices
    rw [hiso, List.map_map]
    refine List.map_congr_left fun i hi => ?_
    exact (value_index_image patn b hp hb i (List.mem_range.1 hi)).1
  refine ⟨h1, ?_⟩
  intro s hs
  unfold weight.indices at hs
  rw [hiso, List.map_map] at hs
  obtain ⟨i, hi, rfl⟩ := List.mem_map.1 hs
  rw [hsize, value_size_eq _ hL]
  exact (value_index_image patn b hp hb i (List.mem_range.1 hi)).2

theorem estimate_value_eq_indices (w : weight) (b : board) (h : ∀ s ∈ w.indices b, s < w.size) :
    w.estimate_value b = some ((w.indices b).map w.value).sum := by
  unfold weight.estimate_value
  rw [estimate_value_loop_eq w.size w.value b w.isomorphism]
  · simp [weight.indices, List.map_map, Function.comp_def]
  · intro p hp
    exact h _ (List.mem_map_of_mem _ hp)

theorem sum_map_range_eight (f : Nat → ℚ) :
    ((List.range 8).map f).sum = ∑ i in Finset.range 8, f i := by
  simp [List.range, List.range.loop, Finset.sum_range_succ]
  ring

theorem sum_count_range (n : Nat) (l : List Nat) (h : ∀ x ∈ l, x < n) :
    ∑ s in Finset.range n, (l.count s : ℚ) = l.length := by
  induction l with
  | nil => simp
  | cons a rest ih =>
    have ha : a < n := h a (List.mem_cons_self _ _)
    have h1 := ih (fun x hx => h x (List.mem_cons_of_mem _ hx))
    simp only [List.count_cons, Nat.cast_add, Finset.sum_add_distrib, h1, List.length_cons,
      beq_iff_eq]
    simp [Finset.sum_ite_eq, ha]

/-- What the loop of `update` produces: every slot gains `delta` once per index equal to
it, and the returned sum adds, for the `i`-th index, the slot as it stands right after
that index's own addition. -/
theorem update_loop_eq (size : Nat) (b : board) (delta : ℚ) (isos : List (List Nat))
    (h : ∀ p ∈ isos, value_index b p < size) :
    ∀ (value : Nat → ℚ) (sum : ℚ), ∃ value1,
      update_loop size b delta isos value sum = some (value1,
        sum + ∑ i in Finset.range isos.length,
          (value ((isos.map (value_index b)).getD i 0)
            + (((isos.map (value_index b)).take (i + 1)).count
                ((isos.map (value_index b)).getD i 0) : ℚ) * delta)) ∧
      ∀ s, value1 s = value s + ((isos.map (value_index b)).count s : ℚ) * delta := by
  induction isos with
  | nil => intro value sum; exact ⟨value, by simp [update_loop], by simp⟩
  | cons p rest ih =>
    intro value sum
    have hp := h p (List.mem_cons_self _ _)
    obtain ⟨value1, h1, h2⟩ := ih (fun q hq => h q (List.mem_cons_of_mem _ hq))
      (Function.update value (value_index b p) (value (value_index b p) + delta))
      (sum + (value (value_index b p) + delta))
    refine ⟨value1, ?_, ?_⟩
    · simp only [update_loop, hp, if_true, Function.update_same, h1, List.length_cons,
        List.map_cons]
      rw [Finset.sum_range_succ']
      simp only [List.getD_cons_succ, List.getD_cons_zero, List.take_succ_cons, List.count_cons,
        List.take_zero, List.count_nil, beq_self_eq_true, if_true, zero_add, Nat.cast_add,
        Nat.cast_one, Nat.cast_ite, Nat.cast_zero, beq_iff_eq]
      have key : ∀ i ∈ Finset.range rest.length,
          Function.update value (value_index b p) (value (value_index b p) + delta)
              ((rest.map (value_index b)).getD i 0) +
            (((rest.map (value_index b)).take (i + 1)).count
              ((rest.map (value_index b)).getD i 0) : ℚ) * delta
          = value ((rest.map (value_index b)).getD i 0) +
            ((((rest.map (value_index b)).take (i + 1)).count
                ((rest.map (value_index b)).getD i 0) : ℚ) +
              if value_index b p = (rest.map (value_index b)).getD i 0 then 1 else 0) * delta := by
        intro i _
        by_cases hc : value_index b p = (rest.map (value_index b)).getD i 0
        · rw [← hc, Function.update_same, if_pos rfl]; ring
        · rw [Function.update_noteq (Ne.symm hc), if_neg hc, add_zero]
      rw [Finset.sum_congr rfl key]
      congr 2
      ring
    · intro s
      rw [h2 s]
      by_cases hc : value_index b p = s
      · subst hc; simp; ring
      · rw [Function.update_noteq (Ne.symm hc), List.map_cons, List.count_cons]; simp [hc]

theorem update_eq (w : weight) (b : board) (delta : ℚ) (h : ∀ s ∈ w.indices b, s < w.size) :
    ∃ w1, w.update b delta = some (w1,
        ∑ i in Finset.range (w.indices b).length,
          (w.value ((w.indices b).getD i 0)
            + (((w.indices b).take (i + 1)).count ((w.indices b).getD i 0) : ℚ) * delta)) ∧
      (∀ s, w1.value s = w.value s + ((w.indices b).count s : ℚ) * delta) ∧
      w1.size = w.size ∧ w1.isomorphism = w.isomorphism ∧ w1.pattern = w.pattern := by
  obtain ⟨value1, h1, h2⟩ := update_loop_eq w.size b delta w.isomorphism
    (fun p hp => h _ (List.mem_map_of_mem _ hp)) w.value 0
  refine ⟨{ w with value := value1 }, ?_, h2, rfl, rfl, rfl⟩
  simp only [weight.update, h1, weight.indices, zero_add, List.length_map]

theorem sum_map_add_const (f : Nat → ℚ) (c : ℚ) (l : List Nat) :
    (l.map fun s => f s + c).sum = (l.map f).sum + l.length * c := by
  induction l with
  | nil => simp
  | cons a rest ih =>
    simp only [List.map_cons, List.sum_cons, ih, List.length_cons, Nat.cast_add, Nat.cast_one]
    ring

theorem count_take_of_nodup (l : List Nat) (hd : l.Nodup) (i : Nat) (hi : i < l.length) :
    (l.take (i + 1)).count (l.getD i 0) = 1 := by
  have hlen : i < (l.take (i + 1)).length := by
    rw [List.length_take]; omega
  have hmem : l.getD i 0 ∈ l.take (i + 1) := by
    have h1 : (l.take (i + 1))[i] = l[i] := List.getElem_take l
    rw [List.getD_eq_getElem _ _ hi, ← h1]
    exact List.getElem_mem hlen
  exact List.count_eq_one_of_mem (hd.sublist (List.take_sublist _ _)) hmem

/-- With pairwise distinct indices the indexed slots of the updated array sum to the old
sum plus one `delta` per index. -/
theorem updated_sum_of_nodup (value value1 : Nat → ℚ) (delta : ℚ) (l : List Nat)
    (hd : l.Nodup) (h : ∀ s, value1 s = value s + (l.count s : ℚ) * delta) :
    (l.map value1).sum = (l.map value).sum + l.length * delta := by
  rw [← sum_map_add_const]
  congr 1
  refine List.map_congr_left fun s hs => ?_
  rw [h s, List.count_eq_one_of_mem hd hs]
  simp

/-- The table constructed from pattern `[0,1,2,3,4,5]`, read on the all-zero board. -/
theorem construct_012345 :
    ∃ w0, weight.construct [0, 1, 2, 3, 4, 5] = some w0 ∧
      w0.indices zero_board = [0, 0, 0, 0, 0, 0, 0, 0] ∧ w0.size = 16777216 ∧
      ∀ s, w0.value s = 0 :=
  ⟨_, construct_eq _ (by decide), by decide, by decide, fun _ => rfl⟩

/-- The table constructed from pattern `[1]`, read on `ramp_board`. -/
theorem construct_1 :
    ∃ w0, weight.construct [1] = some w0 ∧
      w0.indices ramp_board = [1, 7, 14, 8, 2, 11, 13, 4] ∧ w0.size = 16 ∧
      ∀ s, w0.value s = 0 :=
  ⟨_, construct_eq _ (by decide), by decide, by decide, fun _ => rfl⟩

theorem ramp_board_le (p : Nat) (_ : p < 16) : ramp_board p ≤ 15 :=
  Nat.le_of_lt_succ (Nat.mod_lt p (by decide))

/-! ## Lemmas on the network -/

theorem estimate_board_loop_eq (b : board) (net : List weight) :
    ∀ value, estimate_board_loop b net value
      = (estimate_each b net).map fun es => value + es.sum := by
  induction net with
  | nil => intro value; simp [estimate_board_loop, estimate_each]
  | cons w rest ih =>
    intro value
    cases hu : w.estimate_value b with
    | none => simp [estimate_board_loop, estimate_each, hu]
    | some e =>
      cases he : estimate_each b rest with
      | none => simp [estimate_board_loop, estimate_each, hu, he, ih]
      | some es => simp [estimate_board_loop, estimate_each, hu, he, ih, add_assoc]

/-- The list `update_each` returns pairs every table with the result of its own call. -/
theorem update_each_eq_some (b : board) (delta : ℚ) (net : List weight)
    (rs : List (weight × ℚ)) :
    update_each b delta net = some rs ↔
      List.Forall₂ (fun w r => w.update b delta = some r) net rs := by
  induction net generalizing rs with
  | nil =>
    constructor
    · intro h; simp [update_each] at h; subst h; exact List.Forall₂.nil
    · intro h; cases h; rfl
  | cons w rest ih =>
    constructor
    · intro h
      cases hu : w.update b delta with
      | none => simp [update_each, hu] at h
      | some r =>
        cases he : update_each b delta rest with
        | none => simp [update_each, hu, he] at h
        | some rs1 =>
          simp [update_each, hu, he] at h
          subst h
          exact List.Forall₂.cons hu ((ih rs1).1 he)
    · intro h
      cases h with
      | cons h1 h2 => simp [update_each, h1, (ih _).2 h2]

theorem construct_table_1 : weight.construct [1] = some table_1 := rfl

theorem built_net_table_1 : built_net [table_1] := by
  intro w hw
  rw [List.mem_singleton] at hw
  subst hw
  exact ⟨[1], by decide, by decide, table_1, construct_table_1, rfl, rfl, rfl⟩

theorem in_bounds_of_built (net : List weight) (b : board) (hnet : built_net net)
    (hb : ∀ p, p < 16 → b p ≤ 15) : in_bounds net b := by
  intro w hw
  obtain ⟨patn, hp, hL, hbuilt⟩ := hnet w hw
  exact (indices_eq patn w b hp hL hbuilt hb).2

theorem zero_board_le (p : Nat) (_ : p < 16) : zero_board p ≤ 15 := Nat.zero_le _

/-- On a network in bounds for `b` the loop of `weight_update` returns, and the network
it leaves is in bounds wherever the one before was. -/
theorem weight_update_loop_total (b : board) (delta : ℚ) (net : List weight)
    (h : in_bounds net b) :
    ∀ value, ∃ net1 value1, weight_update_loop b delta net value = some (net1, value1) ∧
      ∀ b1, in_bounds net b1 → in_bounds net1 b1 := by
  induction net with
  | nil => intro value; exact ⟨[], value, rfl, fun _ h1 => h1⟩
  | cons w rest ih =>
    intro value
    obtain ⟨w1, hu, -, hsize, hiso, -⟩ :=
      update_eq w b delta (h w (List.mem_cons_self _ _))
    generalize ∑ i in Finset.range (w.indices b).length,
      (w.value ((w.indices b).getD i 0)
        + (((w.indices b).take (i + 1)).count ((w.indices b).getD i 0) : ℚ) * delta) = r at hu
    obtain ⟨rest1, value1, hl, hpres⟩ :=
      ih (fun q hq => h q (List.mem_cons_of_mem _ hq)) (value + r)
    refine ⟨w1 :: rest1, value1, by simp only [weight_update_loop, hu, hl], ?_⟩
    intro b1 hb1 q hq
    rcases List.mem_cons.1 hq with rfl | hq
    · have := hb1 w (List.mem_cons_self _ _)
      unfold weight.indices at this ⊢
      rw [hiso, hsize]; exact this
    · exact hpres b1 (fun q hq => hb1 q (List.mem_cons_of_mem _ hq)) q hq

theorem weight_update_total (net : List weight) (b : board) (diff : ℚ)
    (h : in_bounds net b) :
    ∃ net1 r, weight_update net b diff = some (net1, r) ∧
      ∀ b1, in_bounds net b1 → in_bounds net1 b1 :=
  weight_update_loop_total b _ net h 0

/-- The loop of `episode_update` returns when no access falls out of bounds, and makes
one call to `weight_update` per record it is run over. -/
theorem episode_update_loop_total (alpha : ℚ) (l : List state) :
    ∀ (net : List weight) (G : ℚ) (calls : List (board × ℚ)),
      (∀ t ∈ l, in_bounds net t.after) →
      ∃ net1 G1 calls1, episode_update_loop alpha l net G calls = some (net1, G1, calls1) ∧
        calls1.length = calls.length + l.length := by
  induction l with
  | nil => intro net G calls _; exact ⟨net, G, calls, rfl, rfl⟩
  | cons t rest ih =>
    intro net G calls h
    obtain ⟨net1, r, hu, hpres⟩ := weight_update_total net t.after
      (alpha * (G - (t.value - t.reward))) (h t (List.mem_cons_self _ _))
    obtain ⟨net2, G2, calls2, hl, hlen⟩ := ih net1 (t.reward + r)
      (calls ++ [(t.after, alpha * (G - (t.value - t.reward)))])
      (fun q hq => hpres _ (h q (List.mem_cons_of_mem _ hq)))
    refine ⟨net2, G2, calls2, by simp only [episode_update_loop, hu, hl], ?_⟩
    rw [hlen, List.length_append]
    simp only [List.length_cons, List.length_nil]
    omega

theorem append_getElem?_length (l : List board) (a : board) :
    (l ++ [a])[l.length]? = some a := by
  induction l with
  | nil => rfl
  | cons b rest ih => simp

theorem append_set_length (l : List board) (a x : board) :
    (l ++ [a]).set l.length x = l ++ [x] := by
  induction l with
  | nil => rfl
  | cons b rest ih => simp [ih]

/-- One turn of the loop of `take_action`, for operation `k` after the operations
below it. -/
theorem take_action_loop_step (to_reward : ℚ → Int) (slide : board → Nat → board × Int)
    (net : List weight) (before : board) (e : Nat → ℚ) (k : Nat) (rest : List Nat)
    (v : take_action_vars)
    (he : (slide before k).2 ≠ -1 → estimate_board net (slide before k).1 = some (e k))
    (hv : take_action_inv to_reward slide before e k v) :
    ∃ v1, take_action_loop to_reward slide net before (k :: rest) v
        = take_action_loop to_reward slide net before rest v1 ∧
      take_action_inv to_reward slide before e (k + 1) v1 := by
  obtain ⟨hab, hcase⟩ := hv
  have hlen : v.after_boards.length = k := by rw [hab]; simp
  have hget : (v.after_boards ++ [before])[k]? = some before := by
    rw [← hlen]; exact append_getElem?_length _ _
  have hset : (v.after_boards ++ [before]).set k (slide before k).1
      = (List.range (k + 1)).map (fun j => (slide before j).1) := by
    rw [List.range_succ, List.map_append, ← hab, ← hlen]
    exact append_set_length _ _ _
  by_cases hlegal : (slide before k).2 ≠ -1
  · have hest := he hlegal
    by_cases hgt : wrap_int (to_reward (e k) + (slide before k).2) > v.best_reward
    · refine ⟨⟨(v.after_boards ++ [before]).set k (slide before k).1, k,
          wrap_int (to_reward (e k) + (slide before k).2), (slide before k).2⟩, ?_, hset, Or.inr ?_⟩
      · simp only [take_action_loop, hget, hest]
        rw [if_pos hlegal, if_pos hgt]
      · refine ⟨k, Nat.lt_succ_self k, rfl, hlegal, rfl, rfl, ?_, ?_, ?_⟩
        · rcases hcase with ⟨-, hbest, -⟩ | ⟨m, -, -, -, hbest, -, hmin, -, -⟩
          · rw [hbest] at hgt; exact hgt
          · rw [hbest] at hgt; exact lt_trans hmin hgt
        · intro op hop hl
          rcases Nat.lt_succ_iff_lt_or_eq.1 hop with hlt | rfl
          · rcases hcase with ⟨-, hbest, hall⟩ | ⟨m, -, -, -, hbest, -, -, hall, -⟩
            · rw [hbest] at hgt; exact le_of_lt (lt_of_le_of_lt (hall op hlt hl) hgt)
            · rw [hbest] at hgt; exact le_of_lt (lt_of_le_of_lt (hall op hlt hl) hgt)
          · exact le_refl _
        · intro op hlt hl
          rcases hcase with ⟨-, hbest, hall⟩ | ⟨m, -, -, -, hbest, -, -, hall, -⟩
          · rw [hbest] at hgt; exact lt_of_le_of_lt (hall op hlt hl) hgt
          · rw [hbest] at hgt; exact lt_of_le_of_lt (hall op hlt hl) hgt
    · refine ⟨{ v with after_boards := (v.after_boards ++ [before]).set k (slide before k).1 },
        ?_, hset, ?_⟩
      · simp only [take_action_loop, hget, hest]
        rw [if_pos hlegal, if_neg hgt]
      · have hle : wrap_int (to_reward (e k) + (slide before k).2) ≤ v.best_reward := not_lt.1 hgt
        rcases hcase with ⟨hmax, hbest, hall⟩ | ⟨m, hm, hmax, hml, hbest, hsr, hmin, hall, hlow⟩
        · refine Or.inl ⟨hmax, hbest, ?_⟩
          intro op hop hl
          rcases Nat.lt_succ_iff_lt_or_eq.1 hop with hlt | rfl
          · exact hall op hlt hl
          · rw [hbest] at hle; exact hle
        · refine Or.inr ⟨m, Nat.lt_succ_of_lt hm, hmax, hml, hbest, hsr, hmin, ?_, hlow⟩
          intro op hop hl
          rcases Nat.lt_succ_iff_lt_or_eq.1 hop with hlt | rfl
          · exact hall op hlt hl
          · rw [hbest] at hle; exact hle
  · refine ⟨{ v with after_boards := (v.after_boards ++ [before]).set k (slide before k).1 },
      ?_, hset, ?_⟩
    · simp only [take_action_loop, hget]
      rw [if_neg hlegal]
    · rcases hcase with ⟨hmax, hbest, hall⟩ | ⟨m, hm, hmax, hml, hbest, hsr, hmin, hall, hlow⟩
      · refine Or.inl ⟨hmax, hbest, ?_⟩
        intro op hop hl
        rcases Nat.lt_succ_iff_lt_or_eq.1 hop with hlt | rfl
        · exact hall op hlt hl
        · exact absurd hl hlegal
      · refine Or.inr ⟨m, Nat.lt_succ_of_lt hm, hmax, hml, hbest, hsr, hmin, ?_, hlow⟩
        intro op hop hl
        rcases Nat.lt_succ_iff_lt_or_eq.1 hop with hlt | rfl
        · exact hall op hlt hl
        · exact absurd hl hlegal

/-- The loop of `take_action` over `opcode` returns, in the state described by
`take_action_inv` for all four operations. -/
theorem take_action_loop_opcode (to_reward : ℚ → Int) (slide : board → Nat → board × Int)
    (net : List weight) (before : board) (e : Nat → ℚ)
    (he : ∀ op, op < 4 → (slide before op).2 ≠ -1 →
      estimate_board net (slide before op).1 = some (e op)) :
    ∃ v, take_action_loop to_reward slide net before opcode
        { after_boards := [], max_op := -1, best_reward := INT_MIN, best_slide_reward := 0 }
          = some v ∧
      take_action_inv to_reward slide before e 4 v := by
  have h0 : take_action_inv to_reward slide before e 0
      { after_boards := [], max_op := -1, best_reward := INT_MIN, best_slide_reward := 0 } :=
    ⟨rfl, Or.inl ⟨rfl, rfl, fun op hop => absurd hop (Nat.not_lt_zero op)⟩⟩
  obtain ⟨v1, e1, h1⟩ := take_action_loop_step to_reward slide net before e 0 [1, 2, 3] _
    (he 0 (by decide)) h0
  obtain ⟨v2, e2, h2⟩ := take_action_loop_step to_reward slide net before e 1 [2, 3] v1
    (he 1 (by decide)) h1
  obtain ⟨v3, e3, h3⟩ := take_action_loop_step to_reward slide net before e 2 [3] v2
    (he 2 (by decide)) h2
  obtain ⟨v4, e4, h4⟩ := take_action_loop_step to_reward slide net before e 3 [] v3
    (he 3 (by decide)) h3
  refine ⟨v4, ?_, h4⟩
  unfold opcode
  rw [e1, e2, e3, e4]
  rfl

/-- What `take_action` returns: the default action when the loop retained no operation,
the slide of the retained operation otherwise; in both cases the agent is as before. -/
theorem take_action_result (to_reward : ℚ → Int) (slide : board → Nat → board × Int)
    (s : TD_slider) (before : board) (e : Nat → ℚ)
    (he : ∀ op, op < 4 → (slide before op).2 ≠ -1 →
      estimate_board s.net (slide before op).1 = some (e op)) :
    (s.take_action to_reward slide before = some (action.default_action, s) ∧
      ∀ op, op < 4 → (slide before op).2 ≠ -1 →
        candidate_value to_reward slide before e op ≤ INT_MIN) ∨
    ∃ m, m < 4 ∧ s.take_action to_reward slide before = some (action.slide m, s) ∧
      (slide before m).2 ≠ -1 ∧
      INT_MIN < candidate_value to_reward slide before e m ∧
      (∀ op, op < 4 → (slide before op).2 ≠ -1 →
        candidate_value to_reward slide before e op
          ≤ candidate_value to_reward slide before e m) ∧
      (∀ op, op < m → (slide before op).2 ≠ -1 →
        candidate_value to_reward slide before e op
          < candidate_value to_reward slide before e m) := by
  obtain ⟨v, hloop, hab, hcase⟩ := take_action_loop_opcode to_reward slide s.net before e he
  rcases hcase with ⟨hmax, -, hall⟩ | ⟨m, hm, hmax, hml, -, -, hmin, hall, hlow⟩
  · refine Or.inl ⟨?_, hall⟩
    simp only [TD_slider.take_action, hloop, hmax, ne_eq, not_true_eq_false, if_false]
  · refine Or.inr ⟨m, hm, ?_, hml, hmin, hall, hlow⟩
    have hne : (m : Int) ≠ -1 := by omega
    have hget : v.after_boards[m]? = some (slide before m).1 := by
      rw [hab, List.getElem?_map, List.getElem?_range hm]
      rfl
    simp only [TD_slider.take_action, hloop, hmax, ne_eq, hne, not_false_eq_true, if_true,
      Int.toNat_ofNat, hget]

theorem estimate_board_table_1 : estimate_board [table_1] ramp_board = some 0 := by
  have hidx : table_1.indices ramp_board = [1, 7, 14, 8, 2, 11, 13, 4] := by decide
  have h := estimate_value_eq_indices table_1 ramp_board (by rw [hidx]; decide)
  have hv : table_1.value = fun _ => 0 := rfl
  rw [hv] at h
  simp only [estimate_board, estimate_board_loop, h]
  simp

theorem round_even_eq (y : ℚ) (n : ℤ) (h1 : (n : ℚ) - 1 / 2 < y) (h2 : y < n + 1 / 2) :
    round_even y = n := by
  unfold round_even
  by_cases h : (n : ℚ) ≤ y
  · have hf : ⌊y⌋ = n := Int.floor_eq_iff.2 ⟨h, by linarith⟩
    rw [hf, if_pos (by linarith)]
  · have h3 : y < n := not_le.1 h
    have hf : ⌊y⌋ = n - 1 := Int.floor_eq_iff.2 ⟨by push_cast; linarith, by push_cast; linarith⟩
    rw [hf, if_neg (by push_cast; linarith), if_pos (by push_cast; linarith)]
    ring

theorem log_two_eq (x : ℚ) (k : ℤ) (h1 : (2 : ℚ) ^ k ≤ x) (h2 : x < 2 ^ (k + 1)) :
    Int.log 2 x = k := by
  have hx : 0 < x := lt_of_lt_of_le (by positivity) h1
  have ha : k ≤ Int.log 2 x := (Int.zpow_le_iff_le_log (by norm_num) hx).1 (by simpa using h1)
  have hb : Int.log 2 x < k + 1 := (Int.lt_zpow_iff_log_lt (by norm_num) hx).1 (by simpa using h2)
  omega

/-- The rounding of a positive `x` with `2^k <= x < 2^(k+1)`, in the normal range: the
multiple `n * 2^(k-23)` at less than half a unit in the last place from `x`. -/
theorem round_binary32_eq (x : ℚ) (k n : ℤ) (h1 : (2 : ℚ) ^ k ≤ x) (h2 : x < 2 ^ (k + 1))
    (hk : -126 ≤ k) (hn1 : (n : ℚ) - 1 / 2 < x / 2 ^ (k - 23))
    (hn2 : x / 2 ^ (k - 23) < n + 1 / 2) :
    round_binary32 x = n * 2 ^ (k - 23) := by
  have hx : 0 < x := lt_of_lt_of_le (by positivity) h1
  unfold round_binary32
  rw [if_neg (ne_of_gt hx), abs_of_pos hx, log_two_eq x k h1 h2, max_eq_left hk,
    round_even_eq _ n hn1 hn2]

/-- A natural number below `2^24` is a `float`. -/
theorem round_binary32_nat (n : ℕ) (hn : n < 2 ^ 24) : round_binary32 (n : ℚ) = n := by
  by_cases h0 : n = 0
  · subst h0; simp [round_binary32]
  · have hk : Nat.log 2 n < 24 := Nat.log_lt_of_lt_pow h0 hn
    have h1 : (2 : ℚ) ^ ((Nat.log 2 n : ℕ) : ℤ) ≤ n := by
      rw [zpow_natCast]
      exact_mod_cast Nat.pow_log_le_self 2 h0
    have h2 : (n : ℚ) < 2 ^ (((Nat.log 2 n : ℕ) : ℤ) + 1) := by
      have := Nat.lt_pow_succ_log_self (by norm_num : 1 < 2) n
      have h3 : (((Nat.log 2 n : ℕ) : ℤ) + 1) = ((Nat.log 2 n + 1 : ℕ) : ℤ) := by push_cast; ring
      rw [h3, zpow_natCast]
      exact_mod_cast this
    have he : (((Nat.log 2 n : ℕ) : ℤ) - 23) = -((23 - Nat.log 2 n : ℕ) : ℤ) := by omega
    have hp : (2 : ℚ) ^ (((Nat.log 2 n : ℕ) : ℤ) - 23) = ((2 : ℚ) ^ (23 - Nat.log 2 n))⁻¹ := by
      rw [he, zpow_neg, zpow_natCast]
    have hq : (n : ℚ) / 2 ^ (((Nat.log 2 n : ℕ) : ℤ) - 23)
        = (((n * 2 ^ (23 - Nat.log 2 n) : ℕ) : ℤ) : ℚ) := by
      rw [hp, div_inv_eq_mul]
      push_cast
      ring
    rw [round_binary32_eq (n : ℚ) (Nat.log 2 n) ((n * 2 ^ (23 - Nat.log 2 n) : ℕ) : ℤ) h1 h2
      (by omega) (by rw [hq]; linarith) (by rw [hq]; linarith), hp]
    push_cast
    have hpos : (2 : ℚ) ^ (23 - Nat.log 2 n) ≠ 0 := by positivity
    field_simp

theorem float_add_nat (a b : ℕ) (h : a + b < 2 ^ 24) :
    float_add (a : ℚ) (b : ℚ) = ((a + b : ℕ) : ℚ) := by
  unfold float_add
  rw [← Nat.cast_add]
  exact round_binary32_nat _ h

/-- Adding the natural number `d` repeatedly, as `float`s, is exact below `2^24`. -/
theorem iterate_float_add_nat (d a : ℕ) :
    ∀ n : ℕ, a + n * d < 2 ^ 24 →
      (fun x => float_add x (d : ℚ))^[n] (a : ℚ) = ((a + n * d : ℕ) : ℚ) := by
  intro n
  induction n with
  | zero => intro _; simp
  | succ n ih =>
    intro h
    have h1 : a + n * d < 2 ^ 24 := by
      have : a + n * d ≤ a + (n + 1) * d := by
        apply Nat.add_le_add_left
        exact Nat.mul_le_mul_right d (Nat.le_succ n)
      omega
    rw [Function.iterate_succ_apply', ih h1, float_add_nat _ _ (by
      have : a + n * d + d = a + (n + 1) * d := by ring
      omega)]
    congr 1
    ring

/-- Summing natural numbers as `float`s is exact below `2^24`. -/
theorem foldl_float_add_nat (l : List ℕ) :
    ∀ acc : ℕ, acc + l.sum < 2 ^ 24 →
      (List.map (fun n : ℕ => (n : ℚ)) l).foldl float_add (acc : ℚ)
        = ((acc + l.sum : ℕ) : ℚ) := by
  induction l with
  | nil => intro acc _; simp
  | cons n rest ih =>
    intro acc h
    have h1 : acc + n < 2 ^ 24 := by
      simp only [List.sum_cons] at h; omega
    simp only [List.map_cons, List.foldl_cons, List.sum_cons]
    rw [float_add_nat acc n h1, ih (acc + n) (by simp only [List.sum_cons] at h; omega)]
    congr 1
    ring

/-! ## Lemmas on the weight table in float arithmetic -/

theorem estimate_value_loop_float_eq (fadd : ℚ → ℚ → ℚ) (size : Nat) (value : Nat → ℚ)
    (b : board) (isos : List (List Nat)) (h : ∀ p ∈ isos, value_index b p < size) :
    ∀ sum, estimate_value_loop_float fadd size value b isos sum
      = some ((isos.map fun p => value (value_index b p)).foldl fadd sum) := by
  induction isos with
  | nil => intro sum; rfl
  | cons p rest ih =>
    intro sum
    have hp := h p (List.mem_cons_self _ _)
    simp only [estimate_value_loop_float, hp, if_true, List.map_cons, List.foldl_cons,
      ih (fun q hq => h q (List.mem_cons_of_mem _ hq))]

theorem estimate_value_float_eq_indices (fadd : ℚ → ℚ → ℚ) (w : weight) (b : board)
    (h : ∀ s ∈ w.indices b, s < w.size) :
    w.estimate_value_float fadd b = some (((w.indices b).map w.value).foldl fadd 0) := by
  unfold weight.estimate_value_float
  rw [estimate_value_loop_float_eq fadd w.size w.value b w.isomorphism
    (fun p hp => h _ (List.mem_map_of_mem _ hp))]
  simp [weight.indices, List.map_map, Function.comp_def]

/-- What the loop of `update` produces in float arithmetic: every slot has had `delta`
added once per index equal to it, and the returned sum accumulates, for the `i`-th
index, the slot as it stands right after that index's own addition. -/
theorem update_loop_float_eq (fadd : ℚ → ℚ → ℚ) (size : Nat) (b : board) (delta : ℚ)
    (isos : List (List Nat)) (h : ∀ p ∈ isos, value_index b p < size) :
    ∀ (value : Nat → ℚ) (sum : ℚ), ∃ value1,
      update_loop_float fadd size b delta isos value sum = some (value1,
        ((List.range isos.length).map fun i =>
          (fun x => fadd x delta)^[((isos.map (value_index b)).take (i + 1)).count
              ((isos.map (value_index b)).getD i 0)]
            (value ((isos.map (value_index b)).getD i 0))).foldl fadd sum) ∧
      ∀ s, value1 s
        = (fun x => fadd x delta)^[(isos.map (value_index b)).count s] (value s) := by
  induction isos with
  | nil => intro value sum; exact ⟨value, rfl, fun s => rfl⟩
  | cons p rest ih =>
    intro value sum
    have hp := h p (List.mem_cons_self _ _)
    obtain ⟨value1, h1, h2⟩ := ih (fun q hq => h q (List.mem_cons_of_mem _ hq))
      (Function.update value (value_index b p) (fadd (value (value_index b p)) delta))
      (fadd sum (fadd (value (value_index b p)) delta))
    refine ⟨value1, ?_, ?_⟩
    · simp only [update_loop_float, hp, if_true, Function.update_same, h1, List.length_cons,
        List.map_cons]
      rw [List.range_succ_eq_map, List.map_cons, List.foldl_cons, List.map_map]
      have h0 : (fun x => fadd x delta)^[((value_index b p :: rest.map (value_index b)).take
            (0 + 1)).count ((value_index b p :: rest.map (value_index b)).getD 0 0)]
          (value ((value_index b p :: rest.map (value_index b)).getD 0 0))
          = fadd (value (value_index b p)) delta := by
        simp
      rw [h0]
      refine congrArg (fun l => some (value1, List.foldl fadd
        (fadd sum (fadd (value (value_index b p)) delta)) l))
        (List.map_congr_left fun i _ => ?_)
      simp only [Function.comp, Nat.succ_eq_add_one, List.getD_cons_succ, List.take_succ_cons,
        List.count_cons]
      by_cases hc : value_index b p = (rest.map (value_index b)).getD i 0
      · rw [← hc]
        simp only [beq_self_eq_true, if_true, Function.update_same,
          Function.iterate_succ_apply]
      · rw [Function.update_noteq (Ne.symm hc)]
        simp only [beq_iff_eq, hc, if_false, Nat.add_zero]
    · intro s
      rw [h2 s, List.map_cons, List.count_cons]
      by_cases hc : value_index b p = s
      · subst hc
        simp only [beq_self_eq_true, if_true, Function.update_same,
          Function.iterate_succ_apply]
      · rw [Function.update_noteq (Ne.symm hc)]
        simp only [beq_iff_eq, hc, if_false, Nat.add_zero]

theorem update_float_eq (fadd : ℚ → ℚ → ℚ) (w : weight) (b : board) (delta : ℚ)
    (h : ∀ s ∈ w.indices b, s < w.size) :
    ∃ w1, w.update_float fadd b delta = some (w1,
        ((List.range (w.indices b).length).map fun i =>
          (fun x => fadd x delta)^[((w.indices b).take (i + 1)).count ((w.indices b).getD i 0)]
            (w.value ((w.indices b).getD i 0))).foldl fadd 0) ∧
      (∀ s, w1.value s = (fun x => fadd x delta)^[(w.indices b).count s] (w.value s)) ∧
      w1.size = w.size ∧ w1.isomorphism = w.isomorphism ∧ w1.pattern = w.pattern := by
  obtain ⟨value1, h1, h2⟩ := update_loop_float_eq fadd w.size b delta w.isomorphism
    (fun p hp => h _ (List.mem_map_of_mem _ hp)) w.value 0
  refine ⟨{ w with value := value1 }, ?_, h2, rfl, rfl, rfl⟩
  simp only [weight.update_float, h1, weight.indices, List.length_map]

theorem map_range_getD (g : Nat → ℚ) (l : List Nat) :
    ((List.range l.length).map fun i => g (l.getD i 0)) = l.map g := by
  induction l with
  | nil => rfl
  | cons a rest ih =>
    rw [List.length_cons, List.range_succ_eq_map, List.map_cons, List.map_map, List.map_cons,
      ← ih]
    rfl

/-- With pairwise distinct indices the values that the loop of `update` accumulates are
the indexed slots after one addition of `delta` each. -/
theorem returned_values_of_nodup (fadd : ℚ → ℚ → ℚ) (value : Nat → ℚ) (delta : ℚ)
    (l : List Nat) (hd : l.Nodup) :
    ((List.range l.length).map fun i =>
        (fun x => fadd x delta)^[(l.take (i + 1)).count (l.getD i 0)] (value (l.getD i 0)))
      = l.map fun s => fadd (value s) delta := by
  rw [← map_range_getD (fun s => fadd (value s) delta) l]
  refine List.map_congr_left fun i hi => ?_
  rw [count_take_of_nodup l hd i (List.mem_range.1 hi)]
  rfl

/-- When each addition of `delta` to a slot is exact, so is their succession. -/
theorem iterate_of_exact (fadd : ℚ → ℚ → ℚ) (delta v : ℚ) (m : Nat)
    (h : ∀ k, k < m → fadd (v + k * delta) delta = v + (k + 1) * delta) :
    ∀ n, n ≤ m → (fun x => fadd x delta)^[n] v = v + n * delta := by
  intro n
  induction n with
  | zero => intro _; simp
  | succ n ih =>
    intro hn
    rw [Function.iterate_succ_apply', ih (Nat.le_of_succ_le hn), h n hn]
    push_cast
    ring

/-- With exact addition the float operations are the operations in exact arithmetic. -/
theorem update_float_exact (w : weight) (b : board) (delta : ℚ) :
    w.update_float (fun x y => x + y) b delta = w.update b delta := by
  have key : ∀ (isos : List (List Nat)) (value : Nat → ℚ) (sum : ℚ),
      update_loop_float (fun x y => x + y) w.size b delta isos value sum
        = update_loop w.size b delta isos value sum := by
    intro isos
    induction isos with
    | nil => intro value sum; rfl
    | cons p rest ih =>
      intro value sum
      simp only [update_loop_float, update_loop, ih]
  unfold weight.update_float weight.update
  rw [key]

theorem estimate_value_float_exact (w : weight) (b : board) :
    w.estimate_value_float (fun x y => x + y) b = w.estimate_value b := by
  have key : ∀ (isos : List (List Nat)) (sum : ℚ),
      estimate_value_loop_float (fun x y => x + y) w.size w.value b isos sum
        = estimate_value_loop w.size w.value b isos sum := by
    intro isos
    induction isos with
    | nil => intro sum; rfl
    | cons p rest ih =>
      intro sum
      simp only [estimate_value_loop_float, estimate_value_loop, ih]
  unfold weight.estimate_value_float weight.estimate_value
  rw [key]

/-! ## Claims on the weight table -/

/-- C1. For a table built by the constructor from a pattern of at most 7 positions in
`0..15`, whatever its array holds, and a board whose cells lie in `[0,15]`,
`estimate_value` returns the sum over the symmetry indices `i = 0..7` of the array entry
at `Σ_j board(gen_isomorphism(p_j)[i]) * 16^j`.  The operation is a function of the
table and the board that yields only this number: there is no table after the call
other than the one before it. -/
theorem estimate_value_eq_sum (patn : List Nat) (w : weight) (b : board)
    (hp : ∀ p ∈ patn, p < 16) (hL : patn.length ≤ 7) (hw : w.built_from patn)
    (hb : ∀ p, p < 16 → b p ≤ 15) :
    w.estimate_value b = some (∑ i in Finset.range 8,
      w.value (∑ j in Finset.range patn.length,
        b ((gen_isomorphism (patn.getD j 0)).getD i 0) * 16 ^ j)) := by
  obtain ⟨h1, h2⟩ := indices_eq patn w b hp hL hw hb
  rw [estimate_value_eq_indices w b h2, h1, List.map_map, sum_map_range_eight]
  rfl

/-- C1 at a concrete input: the table constructed from pattern `[1]` with array contents
`value[s] = s`, read on `ramp_board`, whose cells at the 8 images of position 1 are
1, 7, 14, 8, 2, 11, 13, 4: the estimate is their sum, 60. -/
theorem estimate_value_eq_sum_witness :
    ∃ w0, weight.construct [1] = some w0 ∧
      ({ w0 with value := fun s => (s : ℚ) } : weight).estimate_value ramp_board = some 60 := by
  obtain ⟨w0, hc, -, -, -⟩ := construct_1
  refine ⟨w0, hc, ?_⟩
  rw [estimate_value_eq_sum [1] { w0 with value := fun s => (s : ℚ) } ramp_board (by decide)
    (by decide) ⟨w0, hc, rfl, rfl, rfl⟩ ramp_board_le]
  simp [Finset.sum_range_succ, gen_isomorphism, ramp_board]
  norm_num

/-- C2, as the code has it.  For a table built from a pattern of at most 7 positions in
`0..15`, a board with cells in `[0,15]` and any `delta`, `update` returns, there are
exactly 8 computed indices, and every slot `s` of the new array holds the result of
adding `delta` to its old value `m_s` times in float arithmetic, `m_s` being the number
of computed indices equal to `s` (so a slot hit by no isomorphism is unchanged); the
array length, the isomorphic patterns and the pattern are unchanged.  Whenever these
additions are exact, slot `s` holds its old value plus `m_s * delta` and the sum over the
whole array grows by `8 * delta`.  The float addition `fadd` is arbitrary. -/
theorem update_slots (fadd : ℚ → ℚ → ℚ) (patn : List Nat) (w : weight) (b : board)
    (delta : ℚ) (hp : ∀ p ∈ patn, p < 16) (hL : patn.length ≤ 7) (hw : w.built_from patn)
    (hb : ∀ p, p < 16 → b p ≤ 15) :
    ∃ w1 r, w.update_float fadd b delta = some (w1, r) ∧
      (w.indices b).length = 8 ∧
      (∀ s, w1.value s = (fun x => fadd x delta)^[(w.indices b).count s] (w.value s)) ∧
      (∀ s, s ∉ w.indices b → w1.value s = w.value s) ∧
      w1.size = w.size ∧ w1.isomorphism = w.isomorphism ∧ w1.pattern = w.pattern ∧
      ((∀ s ∈ w.indices b, ∀ k, k < (w.indices b).count s →
          fadd (w.value s + k * delta) delta = w.value s + (k + 1) * delta) →
        (∀ s, w1.value s = w.value s + ((w.indices b).count s : ℚ) * delta) ∧
        ∑ s in Finset.range w1.size, w1.value s
          = ∑ s in Finset.range w.size, w.value s + 8 * delta) := by
  obtain ⟨h1, h2⟩ := indices_eq patn w b hp hL hw hb
  obtain ⟨w1, hu, hval, hsize, hiso, hpat⟩ := update_float_eq fadd w b delta h2
  have hlen : (w.indices b).length = 8 := by rw [h1]; simp
  refine ⟨w1, _, hu, hlen, hval, ?_, hsize, hiso, hpat, ?_⟩
  · intro s hs
    rw [hval s, List.count_eq_zero_of_not_mem hs]
    rfl
  · intro hexact
    have hval1 : ∀ s, w1.value s = w.value s + ((w.indices b).count s : ℚ) * delta := by
      intro s
      rw [hval s]
      by_cases hs : s ∈ w.indices b
      · exact iterate_of_exact fadd delta (w.value s) _ (hexact s hs) _ (le_refl _)
      · rw [List.count_eq_zero_of_not_mem hs]
        simp
    refine ⟨hval1, ?_⟩
    rw [hsize]
    simp only [hval1, Finset.sum_add_distrib, ← Finset.sum_mul]
    rw [sum_count_range w.size (w.indices b) h2, hlen]
    norm_num

/-- C2, the scenario of the specification, in binary32 arithmetic: pattern
`[0,1,2,3,4,5]`, the all-zero board, the freshly constructed (zero) table and
`delta = 1` give `value[0] = 8` and a subsequent estimate of 64; the 8 additions are
exact, and the sum over the array grows by 8. -/
theorem update_slots_witness :
    ∃ w0 w1 r, weight.construct [0, 1, 2, 3, 4, 5] = some w0 ∧
      w0.update_float float_add zero_board 1 = some (w1, r) ∧ w1.value 0 = 8 ∧
      w1.estimate_value_float float_add zero_board = some 64 ∧
      ∑ s in Finset.range w1.size, w1.value s
        = ∑ s in Finset.range w0.size, w0.value s + 8 * 1 := by
  obtain ⟨w0, hc, hidx0, hsize0, hval0⟩ := construct_012345
  obtain ⟨w1, r, hu, -, hval, -, hsize, hiso, -, hexact⟩ :=
    update_slots float_add [0, 1, 2, 3, 4, 5] w0 zero_board 1 (by decide) (by decide)
      ⟨w0, hc, rfl, rfl, rfl⟩ (fun _ _ => Nat.zero_le _)
  have hidx : w1.indices zero_board = [0, 0, 0, 0, 0, 0, 0, 0] := by
    rw [← hidx0]; unfold weight.indices; rw [hiso]
  have h8 : (fun x => float_add x (1 : ℚ))^[8] (0 : ℚ) = 8 := by
    have h := iterate_float_add_nat 1 0 8 (by norm_num)
    simpa using h
  have h0 : w1.value 0 = 8 := by
    rw [hval 0, hidx0, hval0]
    exact h8
  have hsum := (hexact (by
    intro s _ k hk
    rw [hidx0] at hk
    have hk8 : k < 8 := lt_of_lt_of_le hk (List.count_le_length _ _)
    have h := float_add_nat k 1 (by norm_num; omega)
    rw [hval0]
    push_cast at h
    rw [zero_add, mul_one, h]
    ring)).2
  refine ⟨w0, w1, r, hc, hu, h0, ?_, hsum⟩
  rw [estimate_value_float_eq_indices float_add w1 zero_board, hidx]
  · simp only [List.map_cons, List.map_nil, h0]
    have h := foldl_float_add_nat [8, 8, 8, 8, 8, 8, 8, 8] 0 (by norm_num)
    simpa using h
  · intro s hs
    rw [hidx] at hs
    have hs0 : s = 0 := by simpa using hs
    rw [hs0, hsize, hsize0]
    decide

/-- C2 as stated fails in binary32 arithmetic: with pattern `[0,1,2,3,4,5]`, the all-zero
board, a zero table and `delta = 13421773 / 134217728` (the `float` written `0.1f`),
slot 0 is hit by all 8 isomorphisms and ends at `6710887 / 8388608`, while its old value
plus `8 * delta` is `13421773 / 16777216`. -/
theorem update_slots_counterexample :
    ∃ w0 w1 r, weight.construct [0, 1, 2, 3, 4, 5] = some w0 ∧
      w0.update_float float_add zero_board (13421773 / 134217728) = some (w1, r) ∧
      (w0.indices zero_board).count 0 = 8 ∧ w0.value 0 = 0 ∧
      w1.value 0 = 6710887 / 8388608 ∧
      w0.value 0 + 8 * (13421773 / 134217728) = 13421773 / 16777216 ∧
      w1.value 0 ≠ w0.value 0 + 8 * (13421773 / 134217728) := by
  obtain ⟨w0, hc, hidx0, hsize0, hval0⟩ := construct_012345
  have hlt : ∀ s ∈ w0.indices zero_board, s < w0.size := by
    rw [hidx0, hsize0]
    intro s hs
    have hs0 : s = 0 := by simpa using hs
    rw [hs0]; decide
  obtain ⟨w1, hu, hval, -, -, -⟩ :=
    update_float_eq float_add w0 zero_board (13421773 / 134217728) hlt
  have s1 : float_add 0 (13421773 / 134217728) = 13421773 / 134217728 := by
    unfold float_add
    rw [round_binary32_eq _ (-4) 13421773 (by norm_num) (by norm_num) (by norm_num)
      (by norm_num) (by norm_num)]
    norm_num
  have s2 : float_add (13421773 / 134217728) (13421773 / 134217728)
      = 13421773 / 67108864 := by
    unfold float_add
    rw [round_binary32_eq _ (-3) 13421773 (by norm_num) (by norm_num) (by norm_num)
      (by norm_num) (by norm_num)]
    norm_num
  have s3 : float_add (13421773 / 67108864) (13421773 / 134217728)
      = 5033165 / 16777216 := by
    unfold float_add
    rw [round_binary32_eq _ (-2) 10066330 (by norm_num) (by norm_num) (by norm_num)
      (by norm_num) (by norm_num)]
    norm_num
  have s4 : float_add (5033165 / 16777216) (13421773 / 134217728)
      = 13421773 / 33554432 := by
    unfold float_add
    rw [round_binary32_eq _ (-2) 13421773 (by norm_num) (by norm_num) (by norm_num)
      (by norm_num) (by norm_num)]
    norm_num
  have s5 : float_add (13421773 / 33554432) (13421773 / 134217728) = 1 / 2 := by
    unfold float_add
    rw [round_binary32_eq _ (-1) 8388608 (by norm_num) (by norm_num) (by norm_num)
      (by norm_num) (by norm_num)]
    norm_num
  have s6 : float_add (1 / 2) (13421773 / 134217728) = 5033165 / 8388608 := by
    unfold float_add
    rw [round_binary32_eq _ (-1) 10066330 (by norm_num) (by norm_num) (by norm_num)
      (by norm_num) (by norm_num)]
    norm_num
  have s7 : float_add (5033165 / 8388608) (13421773 / 134217728) = 2936013 / 4194304 := by
    unfold float_add
    rw [round_binary32_eq _ (-1) 11744052 (by norm_num) (by norm_num) (by norm_num)
      (by norm_num) (by norm_num)]
    norm_num
  have s8 : float_add (2936013 / 4194304) (13421773 / 134217728) = 6710887 / 8388608 := by
    unfold float_add
    rw [round_binary32_eq _ (-1) 13421774 (by norm_num) (by norm_num) (by norm_num)
      (by norm_num) (by norm_num)]
    norm_num
  have hslot : w1.value 0 = 6710887 / 8388608 := by
    rw [hval 0, hidx0, hval0]
    show (fun x => float_add x (13421773 / 134217728))^[8] 0 = 6710887 / 8388608
    simp only [Function.iterate_succ_apply, Function.iterate_zero_apply]
    rw [s1, s2, s3, s4, s5, s6, s7, s8]
  refine ⟨w0, w1, _, hc, hu, by rw [hidx0]; decide, hval0 0, hslot, ?_, ?_⟩
  · rw [hval0]; norm_num
  · rw [hslot, hval0]; norm_num

/-- C3, as the code has it.  For a table built from a pattern of at most 7 positions in
`0..15` and a board with cells in `[0,15]`, the value returned by `update` is the sum,
accumulated from 0 in loop order in float arithmetic, over the 8 isomorphisms, of the
indexed slot as it stands right after that isomorphism's own addition: its old value
with `delta` added once for every isomorphism up to and including this one that computed
the same index.  When the 8 indices are pairwise distinct this is what `estimate_value`
returns on the updated table.  The float addition `fadd` is arbitrary. -/
theorem update_returned_value (fadd : ℚ → ℚ → ℚ) (patn : List Nat) (w : weight) (b : board)
    (delta : ℚ) (hp : ∀ p ∈ patn, p < 16) (hL : patn.length ≤ 7) (hw : w.built_from patn)
    (hb : ∀ p, p < 16 → b p ≤ 15) :
    ∃ w1 r, w.update_float fadd b delta = some (w1, r) ∧
      r = ((List.range 8).map fun i =>
          (fun x => fadd x delta)^[((w.indices b).take (i + 1)).count ((w.indices b).getD i 0)]
            (w.value ((w.indices b).getD i 0))).foldl fadd 0 ∧
      ((w.indices b).Nodup → w1.estimate_value_float fadd b = some r) := by
  obtain ⟨h1, h2⟩ := indices_eq patn w b hp hL hw hb
  obtain ⟨w1, hu, hval, hsize, hiso, -⟩ := update_float_eq fadd w b delta h2
  have hlen : (w.indices b).length = 8 := by rw [h1]; simp
  have hidx : w1.indices b = w.indices b := by unfold weight.indices; rw [hiso]
  refine ⟨w1, _, hu, by rw [hlen], ?_⟩
  intro hd
  rw [estimate_value_float_eq_indices fadd w1 b (by rw [hidx, hsize]; exact h2), hidx,
    returned_values_of_nodup fadd w.value delta _ hd]
  congr 2
  refine List.map_congr_left fun s hs => ?_
  rw [hval s, List.count_eq_one_of_mem hd hs]
  rfl

/-- C3 at a concrete input, in binary32 arithmetic: pattern `[1]`, whose 8 images are
distinct positions, a zero table and the board `ramp_board`, with `delta = 1`: the call
returns 8 and the estimate on the updated table is 8. -/
theorem update_returned_value_witness :
    ∃ w0 w1, weight.construct [1] = some w0 ∧ (w0.indices ramp_board).Nodup ∧
      w0.update_float float_add ramp_board 1 = some (w1, 8) ∧
      w1.estimate_value_float float_add ramp_board = some 8 := by
  obtain ⟨w0, hc, hidx0, -, hval0⟩ := construct_1
  have hd : (w0.indices ramp_board).Nodup := by rw [hidx0]; decide
  obtain ⟨w1, r, hu, hr, he⟩ :=
    update_returned_value float_add [1] w0 ramp_board 1 (by decide) (by decide)
      ⟨w0, hc, rfl, rfl, rfl⟩ ramp_board_le
  have hone : float_add 0 1 = 1 := by
    have h := float_add_nat 0 1 (by norm_num)
    simpa using h
  have hr8 : r = 8 := by
    have hlen : (w0.indices ramp_board).length = 8 := by rw [hidx0]; rfl
    rw [hr, ← hlen, returned_values_of_nodup float_add w0.value 1 _ hd, funext hval0, hidx0]
    simp only [List.map_cons, List.map_nil, hone]
    have h := foldl_float_add_nat [1, 1, 1, 1, 1, 1, 1, 1] 0 (by norm_num)
    simpa using h
  rw [hr8] at hu he
  exact ⟨w0, w1, hc, hd, hu, he hd⟩

/-- C3 as stated fails on a symmetric board, in binary32 arithmetic: with pattern
`[0,1,2,3,4,5]`, the all-zero board, a zero table and `delta = 1`, `update` returns
`1 + 2 + ... + 8 = 36` while `estimate_value` on the updated table returns 64. -/
theorem update_returned_value_counterexample :
    ∃ w0 w1, weight.construct [0, 1, 2, 3, 4, 5] = some w0 ∧
      w0.update_float float_add zero_board 1 = some (w1, 36) ∧
      w1.estimate_value_float float_add zero_board = some 64 := by
  obtain ⟨w0, hc, hidx0, hsize0, hval0⟩ := construct_012345
  have hlt : ∀ s ∈ w0.indices zero_board, s < w0.size := by
    rw [hidx0, hsize0]
    intro s hs
    have hs0 : s = 0 := by simpa using hs
    rw [hs0]; decide
  obtain ⟨w1, hu, hval, hsize, hiso, -⟩ := update_float_eq float_add w0 zero_board 1 hlt
  have hidx : w1.indices zero_board = w0.indices zero_board := by
    unfold weight.indices; rw [hiso]
  have hit : ∀ n : ℕ, n < 16777216 → (fun x => float_add x (1 : ℚ))^[n] (0 : ℚ) = n := by
    intro n hn
    have h := iterate_float_add_nat 1 0 n (by norm_num; omega)
    simpa using h
  have h0 : w1.value 0 = 8 := by
    rw [hval 0, hidx0, hval0]
    exact hit 8 (by norm_num)
  refine ⟨w0, w1, hc, ?_, ?_⟩
  · rw [hu, hidx0]
    have hl : ((List.range ([0, 0, 0, 0, 0, 0, 0, 0] : List Nat).length).map fun i =>
          (fun x => float_add x (1 : ℚ))^[(([0, 0, 0, 0, 0, 0, 0, 0] : List Nat).take
              (i + 1)).count (([0, 0, 0, 0, 0, 0, 0, 0] : List Nat).getD i 0)]
            (w0.value (([0, 0, 0, 0, 0, 0, 0, 0] : List Nat).getD i 0)))
        = List.map (fun n : ℕ => (n : ℚ)) [1, 2, 3, 4, 5, 6, 7, 8] := by
      have hc8 : ∀ i, i < 8 →
          (([0, 0, 0, 0, 0, 0, 0, 0] : List Nat).take (i + 1)).count
              (([0, 0, 0, 0, 0, 0, 0, 0] : List Nat).getD i 0) = i + 1 ∧
            ([0, 0, 0, 0, 0, 0, 0, 0] : List Nat).getD i 0 = 0 := by decide
      have hr : List.map (fun n : ℕ => (n : ℚ)) [1, 2, 3, 4, 5, 6, 7, 8]
          = (List.range 8).map (fun i => ((i + 1 : ℕ) : ℚ)) := by
        rfl
      rw [hr]
      refine List.map_congr_left fun i hi => ?_
      have hi8 : i < 8 := List.mem_range.1 hi
      rw [(hc8 i hi8).1, (hc8 i hi8).2, hval0]
      exact hit (i + 1) (by omega)
    rw [hl]
    have h := foldl_float_add_nat [1, 2, 3, 4, 5, 6, 7, 8] 0 (by norm_num)
    have hsum : ((0 + ([1, 2, 3, 4, 5, 6, 7, 8] : List ℕ).sum : ℕ) : ℚ) = 36 := by norm_num
    rw [hsum] at h
    simp only [Nat.cast_zero] at h
    rw [h]
  · rw [estimate_value_float_eq_indices float_add w1 zero_board
      (by rw [hidx, hsize]; exact hlt), hidx, hidx0]
    simp only [List.map_cons, List.map_nil, h0]
    have h := foldl_float_add_nat [8, 8, 8, 8, 8, 8, 8, 8] 0 (by norm_num)
    simpa using h

/-- C4. For a table built from a pattern of at most 7 positions in `0..15`, any `delta`
and a board with cells in `[0,15]` whose 8 computed indices are pairwise distinct,
`estimate_value` after `update(board, delta)` is `estimate_value` before it plus
`8 * delta`. -/
theorem estimate_after_update (patn : List Nat) (w : weight) (b : board) (delta : ℚ)
    (hp : ∀ p ∈ patn, p < 16) (hL : patn.length ≤ 7) (hw : w.built_from patn)
    (hb : ∀ p, p < 16 → b p ≤ 15) (hd : (w.indices b).Nodup) :
    ∃ e w1 r, w.estimate_value b = some e ∧ w.update b delta = some (w1, r) ∧
      w1.estimate_value b = some (e + 8 * delta) := by
  obtain ⟨h1, h2⟩ := indices_eq patn w b hp hL hw hb
  obtain ⟨w1, hu, hval, hsize, hiso, -⟩ := update_eq w b delta h2
  have hlen : (w.indices b).length = 8 := by rw [h1]; simp
  have hidx : w1.indices b = w.indices b := by unfold weight.indices; rw [hiso]
  refine ⟨_, w1, _, estimate_value_eq_indices w b h2, hu, ?_⟩
  rw [estimate_value_eq_indices w1 b (by rw [hidx, hsize]; exact h2), hidx,
    updated_sum_of_nodup w.value w1.value delta _ hd hval, hlen]
  norm_num

/-- C4 at a concrete input: pattern `[1]`, a zero table, the board `ramp_board` and
`delta = 3`: the estimate goes from 0 to 24. -/
theorem estimate_after_update_witness :
    ∃ w0 w1 r, weight.construct [1] = some w0 ∧ (w0.indices ramp_board).Nodup ∧
      w0.estimate_value ramp_board = some 0 ∧ w0.update ramp_board 3 = some (w1, r) ∧
      w1.estimate_value ramp_board = some 24 := by
  obtain ⟨w0, hc, hidx0, hsize0, hval0⟩ := construct_1
  have hd : (w0.indices ramp_board).Nodup := by rw [hidx0]; decide
  obtain ⟨e, w1, r, he, hu, h1⟩ :=
    estimate_after_update [1] w0 ramp_board 3 (by decide) (by decide)
      ⟨w0, hc, rfl, rfl, rfl⟩ ramp_board_le hd
  have hlt : ∀ s ∈ w0.indices ramp_board, s < w0.size := by
    rw [hidx0, hsize0]; decide
  have he0 : e = 0 := by
    have h2 := estimate_value_eq_indices w0 ramp_board hlt
    rw [he, funext hval0] at h2
    simpa using h2
  rw [he0] at he h1
  refine ⟨w0, w1, r, hc, hd, he, hu, ?_⟩
  rw [h1]
  norm_num

/-! ## Claims on the network -/

/-- C7, as the code has it.  For a trajectory of length `T >= 1` on a network of built
tables, with recorded afterstates whose cells lie in `[0,15]`, `episode_update` returns,
makes exactly `T - 1` calls to `weight_update` (none for the most recently appended
record) and leaves the trajectory storage empty. -/
theorem episode_update_calls (s : TD_slider) (hT : 1 ≤ s.state_record.length)
    (hnet : built_net s.net)
    (hb : ∀ t ∈ s.state_record, ∀ p, p < 16 → t.after p ≤ 15) :
    ∃ s1 calls, s.episode_update = some (s1, calls) ∧
      calls.length = s.state_record.length - 1 ∧ s1.state_record = [] := by
  have hne : s.state_record ≠ [] := by
    intro h; rw [h] at hT; exact absurd hT (by decide)
  have hrev : s.state_record.reverse
      = s.state_record.getLast hne :: s.state_record.dropLast.reverse := by
    conv_lhs => rw [← List.dropLast_append_getLast hne]
    simp
  obtain ⟨net1, G1, calls1, hl, hlen⟩ :=
    episode_update_loop_total s.alpha s.state_record.dropLast.reverse s.net 0 []
      (fun t ht => in_bounds_of_built _ _ hnet
        (hb t (List.dropLast_subset _ (List.mem_reverse.1 ht))))
  refine ⟨{ s with net := net1, state_record := [] }, calls1, ?_, ?_, rfl⟩
  · unfold TD_slider.episode_update
    rw [hrev]
    simp only [hl]
  · rw [hlen]
    simp

/-- C7 on the two-step trajectory of the specification: one call to `weight_update`,
and the trajectory is empty afterwards. -/
theorem episode_update_calls_witness :
    ∃ s1 calls,
      TD_slider.episode_update
        { net := [table_1], alpha := 1 / 10, state_record := [record_0, record_1] }
          = some (s1, calls) ∧
      calls.length = 1 ∧ s1.state_record = [] := by
  refine episode_update_calls
    { net := [table_1], alpha := 1 / 10, state_record := [record_0, record_1] }
    (by decide) built_net_table_1 ?_
  intro t ht p hp
  rcases List.mem_cons.1 ht with rfl | ht
  · exact ramp_board_le p hp
  · rw [List.mem_singleton.1 ht]; exact zero_board_le p hp

/-- C7 as stated fails for `T = 1`: the only record is removed and no call to
`weight_update` is made. -/
theorem episode_update_calls_counterexample :
    ∃ s1,
      TD_slider.episode_update
        { net := [table_1], alpha := 1 / 10, state_record := [record_0] } = some (s1, []) ∧
      s1.net = [table_1] ∧ s1.state_record = [] :=
  ⟨_, rfl, rfl, rfl⟩

/-- C8.  On an empty trajectory `episode_update` is not a no-op: the initialisation of
its loop pops the back of the empty vector, which is undefined. -/
theorem episode_update_empty (net : List weight) (alpha : ℚ) :
    TD_slider.episode_update { net := net, alpha := alpha, state_record := [] } = none :=
  rfl

/-! ## Claims on the decision -/

/-- C10.  `take_action` returns with the agent as it was: whatever the board, the
trajectory `state_record` after the call is the one before it, also when a legal
operation is chosen; the record filled in for the chosen operation is not appended. -/
theorem take_action_keeps_trajectory (to_reward : ℚ → Int) (slide : board → Nat → board × Int)
    (s : TD_slider) (before : board) (e : Nat → ℚ)
    (he : ∀ op, op < 4 → (slide before op).2 ≠ -1 →
      estimate_board s.net (slide before op).1 = some (e op)) :
    ∃ a, s.take_action to_reward slide before = some (a, s) := by
  rcases take_action_result to_reward slide s before e he with
    ⟨hres, -⟩ | ⟨m, -, hres, -, -, -, -⟩
  · exact ⟨_, hres⟩
  · exact ⟨_, hres⟩

/-- C10 at a concrete input: on `ramp_board`, where `example_slide` makes operation 1
legal, `take_action` leaves the empty trajectory empty. -/
theorem take_action_keeps_trajectory_witness :
    (example_slide ramp_board 1).2 ≠ -1 ∧
      ∃ a, TD_slider.take_action trunc_reward example_slide
        { net := [table_1], alpha := 1 / 10, state_record := [] } ramp_board
          = some (a, { net := [table_1], alpha := 1 / 10, state_record := [] }) :=
  ⟨by decide,
    take_action_keeps_trajectory trunc_reward example_slide
      { net := [table_1], alpha := 1 / 10, state_record := [] } ramp_board (fun _ => 0)
      (fun _ _ _ => estimate_board_table_1)⟩

/-! ## Lemmas on the symmetries -/

theorem gen_isomorphism_perm : ∀ i, i < 8 → ∀ p, p < 16 →
    (gen_isomorphism p).getD i 0 < 16 ∧
      ∀ q, q < 16 → (gen_isomorphism p).getD i 0 = (gen_isomorphism q).getD i 0 → p = q := by
  decide

theorem gen_isomorphism_onto : ∀ i, i < 8 → ∀ q, q < 16 →
    ∃ p, p < 16 ∧ (gen_isomorphism p).getD i 0 = q := by
  decide

theorem gen_isomorphism_distinct : ∀ i, i < 8 → ∀ j, j < 8 → i ≠ j →
    ∃ p, p < 16 ∧ (gen_isomorphism p).getD i 0 ≠ (gen_isomorphism p).getD j 0 := by
  decide

theorem gen_isomorphism_closed : ∀ i, i < 8 → ∀ j, j < 8 → ∃ k, k < 8 ∧ ∀ p, p < 16 →
    (gen_isomorphism ((gen_isomorphism p).getD j 0)).getD i 0
      = (gen_isomorphism p).getD k 0 := by
  decide

theorem compose_index_spec : ∀ k, k < 8 → ∀ i, i < 8 →
    compose_index k i < 8 ∧ ∀ p, p < 16 →
      (gen_isomorphism ((gen_isomorphism p).getD i 0)).getD k 0
        = (gen_isomorphism p).getD (compose_index k i) 0 := by
  decide

theorem compose_index_perm : ∀ k, k < 8 →
    ((List.range 8).map (compose_index k)).Perm (List.range 8) := by
  decide

theorem transformed_board_le (b : board) (hb : ∀ p, p < 16 → b p ≤ 15) (k : Nat) (hk : k < 8)
    (p : Nat) (hp : p < 16) : transformed_board b k p ≤ 15 :=
  hb _ (gen_isomorphism_perm k hk p hp).1

theorem getD_mem_of_lt (patn : List Nat) (j : Nat) (hj : j < patn.length) :
    patn.getD j 0 ∈ patn := by
  rw [List.getD_eq_getElem _ _ hj]
  exact List.getElem_mem hj

/-- The indices computed on the transformed board are those computed on the board,
taken in the order given by `compose_index`. -/
theorem indices_transformed (patn : List Nat) (w : weight) (b : board)
    (hp : ∀ p ∈ patn, p < 16) (hL : patn.length ≤ 7) (hw : w.built_from patn)
    (hb : ∀ p, p < 16 → b p ≤ 15) (k : Nat) (hk : k < 8) :
    w.indices (transformed_board b k)
      = ((List.range 8).map (compose_index k)).map
          (fun m => ∑ j in Finset.range patn.length,
            b ((gen_isomorphism (patn.getD j 0)).getD m 0) * 16 ^ j) := by
  rw [(indices_eq patn w (transformed_board b k) hp hL hw (transformed_board_le b hb k hk)).1,
    List.map_map]
  refine List.map_congr_left fun i hi => ?_
  refine Finset.sum_congr rfl fun j hj => ?_
  have hpj : patn.getD j 0 < 16 := hp _ (getD_mem_of_lt patn j (Finset.mem_range.1 hj))
  simp only [transformed_board, Function.comp]
  rw [(compose_index_spec k hk i (List.mem_range.1 hi)).2 _ hpj]

/-- On a built table the estimate is the same on a board and on its image under any of
the 8 symmetries. -/
theorem estimate_value_transformed (patn : List Nat) (w : weight) (b : board)
    (hp : ∀ p ∈ patn, p < 16) (hL : patn.length ≤ 7) (hw : w.built_from patn)
    (hb : ∀ p, p < 16 → b p ≤ 15) (k : Nat) (hk : k < 8) :
    ∃ e, w.estimate_value b = some e ∧ w.estimate_value (transformed_board b k) = some e := by
  obtain ⟨h1, h2⟩ := indices_eq patn w b hp hL hw hb
  have h3 := (indices_eq patn w (transformed_board b k) hp hL hw
    (transformed_board_le b hb k hk)).2
  refine ⟨_, estimate_value_eq_indices w b h2, ?_⟩
  rw [estimate_value_eq_indices w _ h3, indices_transformed patn w b hp hL hw hb k hk, h1]
  congr 1
  exact (((compose_index_perm k hk).map _).map _).sum_eq

theorem estimate_each_transformed (b : board) (hb : ∀ p, p < 16 → b p ≤ 15) (k : Nat)
    (hk : k < 8) (net : List weight) (hnet : built_net net) :
    ∃ es, estimate_each b net = some es ∧
      estimate_each (transformed_board b k) net = some es := by
  induction net with
  | nil => exact ⟨[], rfl, rfl⟩
  | cons w rest ih =>
    obtain ⟨patn, hp, hL, hw⟩ := hnet w (List.mem_cons_self _ _)
    obtain ⟨e, h1, h2⟩ := estimate_value_transformed patn w b hp hL hw hb k hk
    obtain ⟨es, h3, h4⟩ := ih (fun q hq => hnet q (List.mem_cons_of_mem _ hq))
    exact ⟨e :: es, by simp only [estimate_each, h1, h3], by simp only [estimate_each, h2, h4]⟩

/-! ## Claims on the symmetries -/

/-- C11. Writing `g_i(p) = gen_isomorphism(p)[i]`: each of `g_0 .. g_7` maps the 16
positions into themselves injectively and onto, `g_0` is the identity, the eight maps
are pairwise distinct, and for every `i, j` there is a `k` with `g_i(g_j(p)) = g_k(p)`
on all 16 positions. -/
theorem gen_isomorphism_group :
    (∀ i, i < 8 → ∀ p, p < 16 →
      (gen_isomorphism p).getD i 0 < 16 ∧
        ∀ q, q < 16 → (gen_isomorphism p).getD i 0 = (gen_isomorphism q).getD i 0 → p = q) ∧
    (∀ i, i < 8 → ∀ q, q < 16 → ∃ p, p < 16 ∧ (gen_isomorphism p).getD i 0 = q) ∧
    (∀ p, p < 16 → (gen_isomorphism p).getD 0 0 = p) ∧
    (∀ i, i < 8 → ∀ j, j < 8 → i ≠ j →
      ∃ p, p < 16 ∧ (gen_isomorphism p).getD i 0 ≠ (gen_isomorphism p).getD j 0) ∧
    (∀ i, i < 8 → ∀ j, j < 8 → ∃ k, k < 8 ∧ ∀ p, p < 16 →
      (gen_isomorphism ((gen_isomorphism p).getD j 0)).getD i 0
        = (gen_isomorphism p).getD k 0) :=
  ⟨gen_isomorphism_perm, gen_isomorphism_onto, by decide, gen_isomorphism_distinct,
    gen_isomorphism_closed⟩

/-- C12. For every position `p` in `0..15`, `gen_isomorphism(p)` has exactly 8 entries
and its entry 0 is `p`; for a pattern of such positions the constructor returns a table
that stores exactly 8 isomorphic patterns, each of the pattern's length, the one at
index 0 being the pattern itself. -/
theorem construct_isomorphism (patn : List Nat) (hp : ∀ p ∈ patn, p < 16) :
    (∀ p, p < 16 → (gen_isomorphism p).length = 8 ∧ (gen_isomorphism p)[0]? = some p) ∧
    ∃ w, weight.construct patn = some w ∧ w.isomorphism.length = 8 ∧
      (∀ iso_patn ∈ w.isomorphism, iso_patn.length = patn.length) ∧
      w.isomorphism[0]? = some patn ∧ w.pattern = patn := by
  refine ⟨by decide, _, construct_eq patn hp, by simp, ?_, ?_, rfl⟩
  · intro iso_patn h
    obtain ⟨i, -, rfl⟩ := List.mem_map.1 h
    simp
  · have hid : (patn.map fun p => (gen_isomorphism p).getD 0 0) = patn := by
      conv_rhs => rw [← List.map_id patn]
      refine List.map_congr_left fun p hp1 => ?_
      have := hp p hp1
      interval_cases p <;> rfl
    have hr : List.range 8 = [0, 1, 2, 3, 4, 5, 6, 7] := by decide
    rw [hr, List.map_cons, List.getElem?_cons_zero, hid]

/-- C12 on the first pattern of `init_weights`. -/
theorem construct_isomorphism_witness :
    ∃ w, weight.construct [0, 1, 2, 3, 4, 5] = some w ∧ w.isomorphism.length = 8 ∧
      (∀ iso_patn ∈ w.isomorphism, iso_patn.length = 6) ∧
      w.isomorphism[0]? = some [0, 1, 2, 3, 4, 5] := by
  obtain ⟨-, w, h1, h2, h3, h4, -⟩ := construct_isomorphism [0, 1, 2, 3, 4, 5] (by decide)
  exact ⟨w, h1, h2, h3, h4⟩

/-- C20. Writing a position as `p = 4 * r + c` with `r = p / 4` and `c = p % 4`,
`gen_isomorphism(p)` lists, in order, the positions of `(r,c)`, `(c,3-r)`, `(3-r,3-c)`,
`(3-c,r)`, `(r,3-c)`, `(3-c,3-r)`, `(3-r,c)` and `(c,r)`. -/
theorem gen_isomorphism_formula (p : Nat) (hp : p < 16) :
    gen_isomorphism p =
      [4 * (p / 4) + p % 4, 4 * (p % 4) + (3 - p / 4), 4 * (3 - p / 4) + (3 - p % 4),
        4 * (3 - p % 4) + p / 4, 4 * (p / 4) + (3 - p % 4), 4 * (3 - p % 4) + (3 - p / 4),
        4 * (3 - p / 4) + p % 4, 4 * (p % 4) + p / 4] := by
  interval_cases p <;> rfl

/-- C20 at position 6 (row 1, column 2). -/
theorem gen_isomorphism_formula_witness :
    gen_isomorphism 6 = [6, 10, 9, 5, 5, 6, 10, 9] ∧
      gen_isomorphism 6 =
        [4 * (6 / 4) + 6 % 4, 4 * (6 % 4) + (3 - 6 / 4), 4 * (3 - 6 / 4) + (3 - 6 % 4),
          4 * (3 - 6 % 4) + 6 / 4, 4 * (6 / 4) + (3 - 6 % 4), 4 * (3 - 6 % 4) + (3 - 6 / 4),
          4 * (3 - 6 / 4) + 6 % 4, 4 * (6 % 4) + 6 / 4] :=
  ⟨rfl, gen_isomorphism_formula 6 (by decide)⟩

theorem built_net_count_table : built_net [count_table] := by
  intro w hw
  rw [List.mem_singleton] at hw
  subst hw
  exact ⟨[1], by decide, by decide, table_1, construct_table_1, rfl, rfl, rfl⟩

theorem sum_map_add_const_rat (c : ℚ) (l : List ℚ) :
    (l.map fun e => e + c).sum = l.sum + l.length * c := by
  induction l with
  | nil => simp
  | cons a rest ih =>
    simp only [List.map_cons, List.sum_cons, ih, List.length_cons, Nat.cast_add, Nat.cast_one]
    ring

/-- On tables whose 8 indices on `b` are in bounds and pairwise distinct, the loop of
`weight_update` returns and every table's estimate on `b` rises by `8 * delta`. -/
theorem weight_update_loop_nodup (b : board) (delta : ℚ) (net : List weight)
    (h : ∀ w ∈ net, (∀ s ∈ w.indices b, s < w.size) ∧ (w.indices b).Nodup ∧
      (w.indices b).length = 8) :
    ∀ value, ∃ net1 value1 es, weight_update_loop b delta net value = some (net1, value1) ∧
      estimate_each b net = some es ∧
      estimate_each b net1 = some (es.map fun e => e + 8 * delta) ∧
      es.length = net.length ∧
      List.Forall₂ (fun w w1 => ∃ e, w.estimate_value b = some e ∧
        w1.estimate_value b = some (e + 8 * delta)) net net1 := by
  induction net with
  | nil => intro value; exact ⟨[], value, [], rfl, rfl, rfl, rfl, List.Forall₂.nil⟩
  | cons w rest ih =>
    intro value
    obtain ⟨hlt, hd, hlen⟩ := h w (List.mem_cons_self _ _)
    obtain ⟨w1, hu, hval, hsize, hiso, -⟩ := update_eq w b delta hlt
    generalize ∑ i in Finset.range (w.indices b).length,
      (w.value ((w.indices b).getD i 0)
        + (((w.indices b).take (i + 1)).count ((w.indices b).getD i 0) : ℚ) * delta) = r at hu
    have hidx : w1.indices b = w.indices b := by unfold weight.indices; rw [hiso]
    have he := estimate_value_eq_indices w b hlt
    have he1 : w1.estimate_value b
        = some (((w.indices b).map w.value).sum + 8 * delta) := by
      rw [estimate_value_eq_indices w1 b (by rw [hidx, hsize]; exact hlt), hidx,
        updated_sum_of_nodup w.value w1.value delta _ hd hval, hlen]
      norm_num
    obtain ⟨rest1, value1, es, hl, hes, hes1, hesl, hall⟩ :=
      ih (fun q hq => h q (List.mem_cons_of_mem _ hq)) (value + r)
    refine ⟨w1 :: rest1, value1, ((w.indices b).map w.value).sum :: es, ?_, ?_, ?_, ?_, ?_⟩
    · simp only [weight_update_loop, hu, hl]
    · simp only [estimate_each, he, hes]
    · simp only [estimate_each, he1, hes1, List.map_cons]
    · simp only [List.length_cons, hesl]
    · exact List.Forall₂.cons ⟨_, he, he1⟩ hall

/-! ## Claims on symmetry, safety and amplification -/

/-- C17. For a board `b` with cells in `[0,15]` and `k` in `0..7`, with
`b_k(p) = b(gen_isomorphism(p)[k])`: on every table built from a pattern of at most 7
positions in `0..15`, whatever its array holds, `estimate_value(b_k)` and
`estimate_value(b)` return the same number; and on every network of such tables
`estimate_board(b_k)` and `estimate_board(b)` return the same number. -/
theorem estimate_symmetric (b : board) (hb : ∀ p, p < 16 → b p ≤ 15) (k : Nat) (hk : k < 8) :
    (∀ patn w, (∀ p ∈ patn, p < 16) → patn.length ≤ 7 → weight.built_from w patn →
      ∃ e, w.estimate_value b = some e ∧
        w.estimate_value (transformed_board b k) = some e) ∧
    (∀ net, built_net net →
      ∃ e, estimate_board net b = some e ∧
        estimate_board net (transformed_board b k) = some e) := by
  refine ⟨fun patn w hp hL hw => estimate_value_transformed patn w b hp hL hw hb k hk, ?_⟩
  intro net hnet
  obtain ⟨es, h1, h2⟩ := estimate_each_transformed b hb k hk net hnet
  refine ⟨es.sum, ?_, ?_⟩
  · unfold estimate_board
    rw [estimate_board_loop_eq, h1]
    simp
  · unfold estimate_board
    rw [estimate_board_loop_eq, h2]
    simp

/-- C17 at a concrete input: the table built from `[1]` holding `value[s] = s`, the board
`ramp_board` and the quarter turn `k = 1`: both estimates are 60. -/
theorem estimate_symmetric_witness :
    count_table.estimate_value ramp_board = some 60 ∧
      count_table.estimate_value (transformed_board ramp_board 1) = some 60 ∧
      transformed_board ramp_board 1 1 = 7 := by
  obtain ⟨e, h1, h2⟩ := (estimate_symmetric ramp_board ramp_board_le 1 (by decide)).1
    [1] count_table (by decide) (by decide) ⟨table_1, construct_table_1, rfl, rfl, rfl⟩
  have hidx : count_table.indices ramp_board = [1, 7, 14, 8, 2, 11, 13, 4] := by decide
  have h3 := estimate_value_eq_indices count_table ramp_board (by rw [hidx]; decide)
  have he : e = 60 := by
    rw [h1, hidx] at h3
    have hv : count_table.value = fun (s : Nat) => (s : ℚ) := rfl
    rw [hv] at h3
    simp only [List.map_cons, List.map_nil, List.sum_cons, List.sum_nil, Option.some.injEq] at h3
    rw [h3]; norm_num
  rw [he] at h1 h2
  exact ⟨h1, h2, by decide⟩

/-- C18. For a table built from a pattern of `L <= 7` positions in `0..15` and a board
with cells in `[0,15]`: the table stores 8 isomorphic patterns, each of length `L`, its
array has `16^L` entries, each of the 8 composite indices lies below `16^L`, and both
`estimate_value` and `update` return. -/
theorem indices_in_range (patn : List Nat) (w : weight) (b : board)
    (hp : ∀ p ∈ patn, p < 16) (hL : patn.length ≤ 7) (hw : w.built_from patn)
    (hb : ∀ p, p < 16 → b p ≤ 15) :
    w.isomorphism.length = 8 ∧
      (∀ iso_patn ∈ w.isomorphism, iso_patn.length = patn.length) ∧
      w.size = 16 ^ patn.length ∧
      (w.indices b).length = 8 ∧
      (∀ s ∈ w.indices b, s < 16 ^ patn.length) ∧
      (∃ e, w.estimate_value b = some e) ∧
      ∀ delta, ∃ w1 r, w.update b delta = some (w1, r) := by
  obtain ⟨hsize, hiso, -⟩ := (built_from_iff w patn hp).1 hw
  obtain ⟨h1, h2⟩ := indices_eq patn w b hp hL hw hb
  have hs : w.size = 16 ^ patn.length := by rw [hsize, value_size_eq _ hL]
  refine ⟨by rw [hiso]; simp, ?_, hs, by rw [h1]; simp, ?_,
    ⟨_, estimate_value_eq_indices w b h2⟩, ?_⟩
  · intro iso_patn h
    rw [hiso] at h
    obtain ⟨i, -, rfl⟩ := List.mem_map.1 h
    simp
  · intro s h
    rw [← hs]; exact h2 s h
  · intro delta
    obtain ⟨w1, hu, -⟩ := update_eq w b delta h2
    exact ⟨w1, _, hu⟩

/-- C18 at a concrete input: the table built from `[1]` on `ramp_board`; its indices
are 1, 7, 14, 8, 2, 11, 13, 4, all below 16. -/
theorem indices_in_range_witness :
    table_1.indices ramp_board = [1, 7, 14, 8, 2, 11, 13, 4] ∧ table_1.size = 16 ^ 1 ∧
      (∀ s ∈ table_1.indices ramp_board, s < 16 ^ 1) ∧
      ∃ e, table_1.estimate_value ramp_board = some e := by
  obtain ⟨-, -, h3, -, h5, h6, -⟩ := indices_in_range [1] table_1 ramp_board (by decide)
    (by decide) ⟨table_1, construct_table_1, rfl, rfl, rfl⟩ ramp_board_le
  exact ⟨by decide, h3, h5, h6⟩

/-- C19. For a network of `N >= 1` built tables, a board with cells in `[0,15]` on which
the 8 indices of each table are pairwise distinct, and any `total_delta`:
`weight_update(board, total_delta)` returns, each table's `estimate_value(board)` rises
by `8 * (total_delta / N)`, and `estimate_board(board)` after the call is
`estimate_board(board)` before it plus `8 * total_delta`. -/
theorem weight_update_amplification (net : List weight) (b : board) (total_delta : ℚ)
    (hN : 1 ≤ net.length) (hnet : built_net net) (hb : ∀ p, p < 16 → b p ≤ 15)
    (hd : ∀ w ∈ net, (w.indices b).Nodup) :
    ∃ e net1 r, estimate_board net b = some e ∧
      weight_update net b total_delta = some (net1, r) ∧
      estimate_board net1 b = some (e + 8 * total_delta) ∧
      List.Forall₂ (fun w w1 => ∃ e0, w.estimate_value b = some e0 ∧
        w1.estimate_value b = some (e0 + 8 * (total_delta / (net.length : ℚ)))) net net1 := by
  have hall : ∀ w ∈ net, (∀ s ∈ w.indices b, s < w.size) ∧ (w.indices b).Nodup ∧
      (w.indices b).length = 8 := by
    intro w hw
    obtain ⟨patn, hp, hL, hbuilt⟩ := hnet w hw
    obtain ⟨h1, h2⟩ := indices_eq patn w b hp hL hbuilt hb
    exact ⟨h2, hd w hw, by rw [h1]; simp⟩
  obtain ⟨net1, r, es, hl, hes, hes1, hlen, hf⟩ :=
    weight_update_loop_nodup b (total_delta / (net.length : ℚ)) net hall 0
  refine ⟨es.sum, net1, r, ?_, hl, ?_, hf⟩
  · unfold estimate_board
    rw [estimate_board_loop_eq, hes]
    simp
  · unfold estimate_board
    rw [estimate_board_loop_eq, hes1]
    have hne : (net.length : ℚ) ≠ 0 := by
      have : 0 < net.length := hN
      positivity
    simp only [Option.map_some', zero_add, sum_map_add_const_rat, hlen, Option.some.injEq]
    field_simp

/-- C19 at a concrete input: two zero tables built from `[1]`, the board `ramp_board`
and `total_delta = 1`: the estimate of the network goes from 0 to 8. -/
theorem weight_update_amplification_witness :
    ∃ net1 r, estimate_board [table_1, table_1] ramp_board = some 0 ∧
      weight_update [table_1, table_1] ramp_board 1 = some (net1, r) ∧
      estimate_board net1 ramp_board = some 8 := by
  have hidx : table_1.indices ramp_board = [1, 7, 14, 8, 2, 11, 13, 4] := by decide
  have hb : built_net [table_1, table_1] := by
    intro w hw
    have hw1 : w = table_1 := by
      rcases List.mem_cons.1 hw with h | h
      · exact h
      · exact List.mem_singleton.1 h
    subst hw1
    exact ⟨[1], by decide, by decide, table_1, construct_table_1, rfl, rfl, rfl⟩
  obtain ⟨e, net1, r, h1, h2, h3, -⟩ := weight_update_amplification [table_1, table_1]
    ramp_board 1 (by decide) hb ramp_board_le (by
      intro w hw
      have hw1 : w = table_1 := by
        rcases List.mem_cons.1 hw with h | h
        · exact h
        · exact List.mem_singleton.1 h
      rw [hw1, hidx]; decide)
  have he : e = 0 := by
    have h4 : table_1.estimate_value ramp_board = some 0 := by
      have h := estimate_value_eq_indices table_1 ramp_board (by rw [hidx]; decide)
      have hv : table_1.value = fun _ => 0 := rfl
      rw [hv] at h
      rw [h]; simp
    have h5 : estimate_board [table_1, table_1] ramp_board = some 0 := by
      simp only [estimate_board, estimate_board_loop, h4]
      norm_num
    rw [h5] at h1
    exact (Option.some.inj h1).symm
  rw [he] at h1 h3
  refine ⟨net1, r, h1, h2, ?_⟩
  rw [h3]; norm_num

/-- C13, as the code has it.  For every pattern of `L <= 7` positions in `0..15` the
constructor returns a table whose array has exactly `16^L` entries, every one equal to
0: up to `L = 7` the shift `1 << (L << 2)` stays within a 32-bit `int`. -/
theorem construct_size (patn : List Nat) (hp : ∀ p ∈ patn, p < 16) (hL : patn.length ≤ 7) :
    ∃ w, weight.construct patn = some w ∧ w.size = 16 ^ patn.length ∧
      ∀ s, w.value s = 0 :=
  ⟨_, construct_eq patn hp, value_size_eq _ hL, fun _ => rfl⟩

/-- C13 on the first pattern of `init_weights`: `16^6 = 16777216` zero entries. -/
theorem construct_size_witness :
    ∃ w, weight.construct [0, 1, 2, 3, 4, 5] = some w ∧ w.size = 16777216 ∧
      ∀ s, w.value s = 0 := by
  obtain ⟨w, h1, h2, h3⟩ := construct_size [0, 1, 2, 3, 4, 5] (by decide) (by decide)
  exact ⟨w, h1, by rw [h2]; rfl, h3⟩

/-- C13 as stated fails from `L = 8` on: the shift is made on a 32-bit `int`, and for a
pattern of 8 positions the array gets 1 entry (the shift count 32 taken modulo 32), not
`16^8 = 4294967296`; taking the shifted value modulo `2^32` instead gives 0, not `16^8`
either.  No length from 8 to 15 gives `16^L`. -/
theorem construct_size_counterexample :
    (∃ w, weight.construct [0, 1, 2, 3, 4, 5, 6, 7] = some w ∧ w.size = 1) ∧
      (16 : Nat) ^ [0, 1, 2, 3, 4, 5, 6, 7].length = 4294967296 ∧
      (1 <<< (8 <<< 2)) % 2 ^ 32 = 0 ∧
      ∀ L, 8 ≤ L → L ≤ 15 → value_size L ≠ 16 ^ L := by
  refine ⟨⟨_, construct_eq _ (by decide), by decide⟩, by decide, by decide, ?_⟩
  intro L h1 h2
  interval_cases L <;> decide

/-! ## Lemmas on the weight file -/

theorem le_bytes_length (count : Nat) : ∀ x, (le_bytes count x).length = count := by
  induction count with
  | zero => intro x; rfl
  | succ n ih => intro x; simp [le_bytes, ih]

theorem le_value_le_bytes (count : Nat) : ∀ x, x < 256 ^ count →
    le_value (le_bytes count x) = x := by
  induction count with
  | zero => intro x hx; simp at hx; simp [le_bytes, le_value, hx]
  | succ n ih =>
    intro x hx
    have h1 : x / 256 < 256 ^ n := by
      apply Nat.div_lt_of_lt_mul
      rw [pow_succ] at hx
      omega
    simp only [le_bytes, le_value, ih _ h1]
    omega

theorem value_bytes_length (float_bits : ℚ → Nat) (value : Nat → ℚ) (count : Nat) :
    ∀ first, (value_bytes float_bits value first count).length = 4 * count := by
  induction count with
  | zero => intro first; rfl
  | succ n ih =>
    intro first
    simp only [value_bytes, List.length_append, le_bytes_length, ih]
    omega

/-- The 4 bytes of entry `i` in the memory of the vector. -/
theorem value_bytes_word (float_bits : ℚ → Nat) (value : Nat → ℚ) (count : Nat) :
    ∀ first i, i < count →
      ((value_bytes float_bits value first count).drop (4 * i)).take 4
        = le_bytes 4 (float_bits (value (first + i))) := by
  induction count with
  | zero => intro first i hi; exact absurd hi (Nat.not_lt_zero i)
  | succ n ih =>
    intro first i hi
    cases i with
    | zero =>
      simp only [value_bytes, Nat.mul_zero, List.drop_zero, Nat.add_zero]
      exact List.take_left' (le_bytes_length 4 _)
    | succ j =>
      have h4 : 4 * (j + 1) = (le_bytes 4 (float_bits (value first))).length + 4 * j := by
        rw [le_bytes_length]; omega
      simp only [value_bytes]
      rw [h4, List.drop_append, ih (first + 1) j (Nat.lt_of_succ_lt_succ hi)]
      congr 3
      omega

theorem operator_out_eq (float_bits : ℚ → Nat) (out : List Nat) (w : weight)
    (hsize : w.size < 2 ^ 62) :
    operator_out float_bits out w = out ++ table_record float_bits w := by
  have h1 : w.size % 2 ^ 64 = w.size := Nat.mod_eq_of_lt (by omega)
  have h2 : (4 * w.size) % 2 ^ 64 = 4 * w.size := Nat.mod_eq_of_lt (by omega)
  unfold operator_out table_record
  rw [h1, h2, List.take_of_length_le (by rw [value_bytes_length]), List.append_assoc]

theorem read_prefix (data rest : List Nat) (count : Nat) (h : data.length = count) :
    istream.read { bytes := data ++ rest, good := true } count
      = (data, { bytes := rest, good := true }) := by
  unfold istream.read
  simp only [if_true, List.take_left' h, List.drop_left' h, List.length_append]
  have : decide (count ≤ data.length + rest.length) = true := by
    rw [decide_eq_true_iff]; omega
  rw [this]

/-- Reading the record of table `w` into any table `w2`: the stream is left good at the
bytes that follow the record, `w2` gets the length of `w`, keeps its own isomorphic
patterns and pattern, and entry `i` is the float of the 4 bytes written for entry `i`. -/
theorem operator_in_record (float_bits : ℚ → Nat) (bits_float : Nat → ℚ) (w w2 : weight)
    (rest : List Nat) (hsize : w.size < 2 ^ 62) :
    (operator_in float_bits bits_float
        { bytes := table_record float_bits w ++ rest, good := true } w2).1
      = { bytes := rest, good := true } ∧
    (operator_in float_bits bits_float
        { bytes := table_record float_bits w ++ rest, good := true } w2).2.size = w.size ∧
    (operator_in float_bits bits_float
        { bytes := table_record float_bits w ++ rest, good := true } w2).2.isomorphism
      = w2.isomorphism ∧
    (operator_in float_bits bits_float
        { bytes := table_record float_bits w ++ rest, good := true } w2).2.pattern
      = w2.pattern ∧
    ∀ i, i < w.size →
      (operator_in float_bits bits_float
          { bytes := table_record float_bits w ++ rest, good := true } w2).2.value i
        = bits_float (le_value (le_bytes 4 (float_bits (w.value i)))) := by
  have h1 : istream.read { bytes := table_record float_bits w ++ rest, good := true } 8
      = (le_bytes 8 w.size,
          { bytes := value_bytes float_bits w.value 0 w.size ++ rest, good := true }) := by
    unfold table_record
    rw [List.append_assoc]
    exact read_prefix _ _ 8 (le_bytes_length 8 _)
  have h2 : le_value (le_bytes 8 w.size ++ (le_bytes 8 0).drop (le_bytes 8 w.size).length)
      = w.size := by
    rw [le_bytes_length, List.drop_of_length_le (by rw [le_bytes_length]), List.append_nil]
    exact le_value_le_bytes 8 _ (by norm_num; omega)
  have h3 : (4 * w.size) % 2 ^ 64 = 4 * w.size := Nat.mod_eq_of_lt (by omega)
  have h4 : istream.read
      { bytes := value_bytes float_bits w.value 0 w.size ++ rest, good := true } (4 * w.size)
      = (value_bytes float_bits w.value 0 w.size, { bytes := rest, good := true }) :=
    read_prefix _ _ _ (value_bytes_length _ _ _ _)
  have h6 : (value_bytes float_bits (fun i => if i < w2.size then w2.value i else 0) 0
      w.size).drop (value_bytes float_bits w.value 0 w.size).length = [] :=
    List.drop_of_length_le (by rw [value_bytes_length, value_bytes_length])
  have key : operator_in float_bits bits_float
      { bytes := table_record float_bits w ++ rest, good := true } w2
      = ({ bytes := rest, good := true },
          { w2 with
            size := w.size
            value := fun i =>
              if (value_bytes float_bits w.value 0 w.size).length ≤ 4 * i then
                (if i < w2.size then w2.value i else 0)
              else bits_float (le_value
                (((value_bytes float_bits w.value 0 w.size).drop (4 * i)).take 4)) }) := by
    unfold operator_in
    simp only [h1, h2, h3, h4, h6, List.append_nil]
  rw [key]
  refine ⟨rfl, rfl, rfl, rfl, ?_⟩
  intro i hi
  have h5 : ¬ (value_bytes float_bits w.value 0 w.size).length ≤ 4 * i := by
    rw [value_bytes_length]; omega
  simp only [h5, if_false]
  rw [value_bytes_word float_bits w.value w.size 0 i hi, Nat.zero_add]

theorem save_weights_loop_eq (float_bits : ℚ → Nat) (net : List weight)
    (hsize : ∀ w ∈ net, w.size < 2 ^ 62) :
    ∀ out, save_weights_loop float_bits net out
      = out ++ (net.map (table_record float_bits)).flatten := by
  induction net with
  | nil => intro out; simp [save_weights_loop]
  | cons w rest ih =>
    intro out
    simp only [save_weights_loop, List.map_cons, List.flatten_cons]
    rw [ih (fun q hq => hsize q (List.mem_cons_of_mem _ hq)),
      operator_out_eq float_bits out w (hsize w (List.mem_cons_self _ _)), List.append_assoc]

theorem table_record_length (float_bits : ℚ → Nat) (w : weight) :
    (table_record float_bits w).length = 8 + 4 * w.size := by
  unfold table_record
  rw [List.length_append, le_bytes_length, value_bytes_length]

theorem records_length (float_bits : ℚ → Nat) (net : List weight) :
    ((net.map (table_record float_bits)).flatten).length
      = (net.map fun w => 8 + 4 * w.size).sum := by
  induction net with
  | nil => rfl
  | cons w rest ih =>
    simp only [List.map_cons, List.flatten_cons, List.length_append, table_record_length, ih,
      List.sum_cons]

/-! ## Claims on the weight file -/

/-- C14. For a table `w` (of a length a vector can have, with entries whose patterns
are 32-bit and that `bits_float` reads back), `operator<<` writes the entry count as 8
bytes followed by 4 bytes per entry, `8 + 4 * n` bytes in all; `operator>>` on these
bytes, into any table `w2`, consumes them all without error and leaves in `w2` an array
of the same length whose entries have the bits written, hence are the entries of `w`. -/
theorem write_read_roundtrip (float_bits : ℚ → Nat) (bits_float : Nat → ℚ) (w w2 : weight)
    (hsize : w.size < 2 ^ 62) (hbits : ∀ i, i < w.size → float_bits (w.value i) < 2 ^ 32)
    (hfloat : ∀ i, i < w.size → bits_float (float_bits (w.value i)) = w.value i) :
    operator_out float_bits [] w
        = le_bytes 8 w.size ++ value_bytes float_bits w.value 0 w.size ∧
      (operator_out float_bits [] w).length = 8 + 4 * w.size ∧
      (operator_in float_bits bits_float
          { bytes := operator_out float_bits [] w, good := true } w2).1
        = { bytes := [], good := true } ∧
      (operator_in float_bits bits_float
          { bytes := operator_out float_bits [] w, good := true } w2).2.size = w.size ∧
      ∀ i, i < w.size →
        (operator_in float_bits bits_float
            { bytes := operator_out float_bits [] w, good := true } w2).2.value i
          = w.value i ∧
        float_bits ((operator_in float_bits bits_float
            { bytes := operator_out float_bits [] w, good := true } w2).2.value i)
          = float_bits (w.value i) := by
  have hout : operator_out float_bits [] w = table_record float_bits w ++ [] := by
    rw [operator_out_eq float_bits [] w hsize, List.nil_append, List.append_nil]
  obtain ⟨h1, h2, -, -, h5⟩ := operator_in_record float_bits bits_float w w2 [] hsize
  rw [← hout] at h1 h2 h5
  refine ⟨by rw [hout, List.append_nil]; rfl, ?_, h1, h2, ?_⟩
  · rw [hout, List.append_nil, table_record_length]
  · intro i hi
    have h6 := h5 i hi
    rw [le_value_le_bytes 4 _ (by have := hbits i hi; norm_num at this ⊢; omega),
      hfloat i hi] at h6
    exact ⟨h6, by rw [h6]⟩

/-- C14 at a concrete input: the two-entry table holding 8 and 1, with the binary32
patterns of these floats: 16 bytes are written, and reading them into a
default-constructed table gives back a two-entry array holding 8 and 1. -/
theorem write_read_roundtrip_witness :
    operator_out example_float_bits [] small_table
        = [2, 0, 0, 0, 0, 0, 0, 0, 0, 0, 0, 65, 0, 0, 128, 63] ∧
      (operator_in example_float_bits example_bits_float
          { bytes := operator_out example_float_bits [] small_table, good := true }
          default_weight).2.size = 2 ∧
      (operator_in example_float_bits example_bits_float
          { bytes := operator_out example_float_bits [] small_table, good := true }
          default_weight).2.value 0 = 8 ∧
      (operator_in example_float_bits example_bits_float
          { bytes := operator_out example_float_bits [] small_table, good := true }
          default_weight).2.value 1 = 1 := by
  have hbits : ∀ i, i < small_table.size →
      example_float_bits (small_table.value i) < 2 ^ 32 := by
    intro i hi
    have hi2 : i < 2 := hi
    interval_cases i <;> norm_num [small_table, example_float_bits]
  have hfloat : ∀ i, i < small_table.size →
      example_bits_float (example_float_bits (small_table.value i)) = small_table.value i := by
    intro i hi
    have hi2 : i < 2 := hi
    interval_cases i <;> norm_num [small_table, example_float_bits, example_bits_float]
  obtain ⟨h1, -, -, h4, h5⟩ := write_read_roundtrip example_float_bits example_bits_float
    small_table default_weight (by norm_num [small_table]) hbits hfloat
  refine ⟨?_, h4, ?_, ?_⟩
  · rw [h1]
    norm_num [small_table, value_bytes, le_bytes, example_float_bits]
  · rw [(h5 0 (by decide)).1]; norm_num [small_table]
  · rw [(h5 1 (by decide)).1]; norm_num [small_table]

/-- C16, as the code has it.  For a network of `N` tables (`N < 2^32`, array lengths a
vector can have), the bytes written by `save_weights` are the table count `N` as 4 bytes
followed by the per-table records in table order (entry count as 8 bytes, then 4 bytes
per entry); their number is `4 + Σ_k (8 + 4 * n_k)`. -/
theorem save_weights_format (float_bits : ℚ → Nat) (net : List weight)
    (hN : net.length < 2 ^ 32) (hsize : ∀ w ∈ net, w.size < 2 ^ 62) :
    save_weights float_bits net
        = le_bytes 4 net.length ++ (net.map (table_record float_bits)).flatten ∧
      (save_weights float_bits net).length
        = 4 + (net.map fun w => 8 + 4 * w.size).sum := by
  have h : save_weights float_bits net
      = le_bytes 4 net.length ++ (net.map (table_record float_bits)).flatten := by
    unfold save_weights
    rw [save_weights_loop_eq float_bits net hsize, Nat.mod_eq_of_lt hN]
  refine ⟨h, ?_⟩
  rw [h, List.length_append, le_bytes_length, records_length]

/-- C16 at a concrete input: the network of the two-entry table and a default table;
the file has `4 + (8 + 4 * 2) + (8 + 4 * 0) = 28` bytes and starts with the count 2. -/
theorem save_weights_format_witness :
    (save_weights example_float_bits [small_table, default_weight]).length = 28 ∧
      (save_weights example_float_bits [small_table, default_weight]).take 4
        = [2, 0, 0, 0] := by
  obtain ⟨h1, h2⟩ := save_weights_format example_float_bits [small_table, default_weight]
    (by norm_num) (by
      intro w hw
      rcases List.mem_cons.1 hw with h | h
      · rw [h]; norm_num [small_table]
      · rw [List.mem_singleton.1 h]; norm_num [default_weight])
  refine ⟨?_, ?_⟩
  · rw [h2]; rfl
  · rw [h1]; rfl

/-- C16 as stated fails: for the network of the two-entry table alone the record of the
table is 16 bytes, and the file written by `save_weights` is the 4 bytes of the table
count followed by these 16 bytes. -/
theorem save_weights_counterexample :
    table_record example_float_bits small_table
        = [2, 0, 0, 0, 0, 0, 0, 0, 0, 0, 0, 65, 0, 0, 128, 63] ∧
      save_weights example_float_bits [small_table]
        = [1, 0, 0, 0, 2, 0, 0, 0, 0, 0, 0, 0, 0, 0, 0, 65, 0, 0, 128, 63] := by
  have h1 : table_record example_float_bits small_table
      = [2, 0, 0, 0, 0, 0, 0, 0, 0, 0, 0, 65, 0, 0, 128, 63] := by
    norm_num [table_record, small_table, value_bytes, le_bytes, example_float_bits]
  refine ⟨h1, ?_⟩
  have h2 : save_weights example_float_bits [small_table]
      = le_bytes 4 1 ++ table_record example_float_bits small_table := by
    unfold save_weights
    rw [save_weights_loop_eq example_float_bits [small_table] (by
      intro w hw
      rw [List.mem_singleton.1 hw]; norm_num [small_table])]
    simp
  rw [h2, h1]
  rfl

/-! ## Lemmas on restoring a network -/

theorem load_weights_loop_isomorphism (float_bits : ℚ → Nat) (bits_float : Nat → ℚ)
    (net : List weight) (h : ∀ w ∈ net, w.isomorphism = []) :
    ∀ s, (load_weights_loop float_bits bits_float net s).2.length = net.length ∧
      ∀ w ∈ (load_weights_loop float_bits bits_float net s).2, w.isomorphism = [] := by
  induction net with
  | nil => intro s; exact ⟨rfl, fun w hw => absurd hw (List.not_mem_nil w)⟩
  | cons w rest ih =>
    intro s
    obtain ⟨h1, h2⟩ := ih (fun q hq => h q (List.mem_cons_of_mem _ hq))
      (operator_in float_bits bits_float s w).1
    refine ⟨by simp only [load_weights_loop, List.length_cons, h1], ?_⟩
    intro q hq
    simp only [load_weights_loop, List.mem_cons] at hq
    rcases hq with rfl | hq
    · exact h w (List.mem_cons_self _ _)
    · exact h2 q hq

/-- Whatever the file holds, the tables `load_weights` leaves in a network that was
empty have no isomorphic pattern. -/
theorem load_weights_isomorphism (float_bits : ℚ → Nat) (bits_float : Nat → ℚ)
    (file : List Nat) :
    ∀ w ∈ load_weights float_bits bits_float file [], w.isomorphism = [] := by
  unfold load_weights
  refine (load_weights_loop_isomorphism float_bits bits_float _ ?_ _).2
  intro w hw
  simp only [resize_net, List.take_nil, List.nil_append] at hw
  rw [List.eq_of_mem_replicate hw]
  rfl

theorem load_weights_length (float_bits : ℚ → Nat) (bits_float : Nat → ℚ)
    (net : List weight) (hN : net.length < 2 ^ 32) (hsize : ∀ w ∈ net, w.size < 2 ^ 62) :
    (load_weights float_bits bits_float (save_weights float_bits net) []).length
      = net.length := by
  have hfile : save_weights float_bits net
      = le_bytes 4 net.length ++ (net.map (table_record float_bits)).flatten := by
    unfold save_weights
    rw [save_weights_loop_eq float_bits net hsize, Nat.mod_eq_of_lt hN]
  have hread := read_prefix (le_bytes 4 net.length)
    ((net.map (table_record float_bits)).flatten) 4 (le_bytes_length 4 _)
  unfold load_weights
  rw [hfile, hread]
  simp only [le_bytes_length]
  rw [List.drop_of_length_le (by rw [le_bytes_length]), List.append_nil,
    le_value_le_bytes 4 _ (by norm_num; omega)]
  rw [(load_weights_loop_isomorphism float_bits bits_float _ (by
    intro w hw
    simp only [resize_net, List.take_nil, List.nil_append] at hw
    rw [List.eq_of_mem_replicate hw]
    rfl) _).1]
  simp [resize_net]

theorem update_no_isomorphism (b : board) (w : weight) (hw : w.isomorphism = []) (delta : ℚ) :
    w.update b delta = some (w, 0) := by
  obtain ⟨size, value, isomorphism, pattern⟩ := w
  simp only at hw
  subst hw
  rfl

/-- On tables without isomorphic patterns the loops run no turn: every estimate is 0 and
an update changes nothing. -/
theorem no_isomorphism_loops (b : board) (net : List weight)
    (h : ∀ w ∈ net, w.isomorphism = []) :
    (∀ value, estimate_board_loop b net value = some value) ∧
      ∀ delta value, weight_update_loop b delta net value = some (net, value) := by
  induction net with
  | nil => exact ⟨fun _ => rfl, fun _ _ => rfl⟩
  | cons w rest ih =>
    obtain ⟨h1, h2⟩ := ih (fun q hq => h q (List.mem_cons_of_mem _ hq))
    have hw := h w (List.mem_cons_self _ _)
    have he : w.estimate_value b = some 0 := by
      unfold weight.estimate_value; rw [hw]; rfl
    have hu : ∀ delta, w.update b delta = some (w, 0) :=
      fun delta => update_no_isomorphism b w hw delta
    refine ⟨?_, ?_⟩
    · intro value
      simp only [estimate_board_loop, he, add_zero, h1]
    · intro delta value
      simp only [weight_update_loop, hu, add_zero, h2]

theorem indices_zero_board (patn : List Nat) (w : weight) (hp : ∀ p ∈ patn, p < 16)
    (hL : patn.length ≤ 7) (hw : w.built_from patn) :
    w.indices zero_board = [0, 0, 0, 0, 0, 0, 0, 0] ∧ 0 < w.size := by
  obtain ⟨h1, h2⟩ := indices_eq patn w zero_board hp hL hw zero_board_le
  have h3 : w.indices zero_board = [0, 0, 0, 0, 0, 0, 0, 0] := by
    rw [h1]
    simp [zero_board, List.range_succ]
  exact ⟨h3, h2 0 (by rw [h3]; simp)⟩

/-- On the all-zero board every table of a built network is updated at slot 0 eight
times: afterwards its estimate is `8 * (value[0] + 8 * delta)`. -/
theorem weight_update_loop_zero_board (delta : ℚ) (net : List weight) (hnet : built_net net) :
    ∀ value, ∃ net1 value1, weight_update_loop zero_board delta net value
        = some (net1, value1) ∧
      estimate_each zero_board net1 = some (net.map fun w => 8 * (w.value 0 + 8 * delta)) ∧
      net1.map (fun w => w.size) = net.map (fun w => w.size) := by
  induction net with
  | nil => intro value; exact ⟨[], value, rfl, rfl, rfl⟩
  | cons w rest ih =>
    intro value
    obtain ⟨patn, hp, hL, hw⟩ := hnet w (List.mem_cons_self _ _)
    obtain ⟨hidx, hpos⟩ := indices_zero_board patn w hp hL hw
    have hlt : ∀ s ∈ w.indices zero_board, s < w.size := by
      intro s hs
      rw [hidx] at hs
      have hs0 : s = 0 := by simpa using hs
      rw [hs0]; exact hpos
    obtain ⟨w1, hu, hval, hsize, hiso, -⟩ := update_eq w zero_board delta hlt
    generalize ∑ i in Finset.range (w.indices zero_board).length,
      (w.value ((w.indices zero_board).getD i 0)
        + (((w.indices zero_board).take (i + 1)).count ((w.indices zero_board).getD i 0) : ℚ)
          * delta) = r at hu
    have hidx1 : w1.indices zero_board = w.indices zero_board := by
      unfold weight.indices; rw [hiso]
    have he1 : w1.estimate_value zero_board = some (8 * (w.value 0 + 8 * delta)) := by
      rw [estimate_value_eq_indices w1 zero_board (by rw [hidx1, hsize]; exact hlt), hidx1,
        hidx]
      simp only [List.map_cons, List.map_nil, List.sum_cons, List.sum_nil, hval 0, hidx]
      norm_num
      ring
    obtain ⟨rest1, value1, hl, hes, hsz⟩ :=
      ih (fun q hq => hnet q (List.mem_cons_of_mem _ hq)) (value + r)
    refine ⟨w1 :: rest1, value1, ?_, ?_, ?_⟩
    · simp only [weight_update_loop, hu, hl]
    · simp only [estimate_each, he1, hes, List.map_cons]
    · simp only [List.map_cons, hsize, hsz]

theorem construct_props (patn : List Nat) (hp : ∀ p ∈ patn, p < 16) (hL : patn.length ≤ 7) :
    ∃ w, weight.construct patn = some w ∧ w.built_from patn ∧ w.size = 16 ^ patn.length ∧
      w.value 0 = 0 :=
  ⟨_, construct_eq patn hp, ⟨_, construct_eq patn hp, rfl, rfl, rfl⟩, value_size_eq _ hL, rfl⟩

/-- The network `init_weights` builds from an empty one: four built tables of `16^6`
zero entries. -/
theorem init_weights_eq :
    ∃ net0, init_weights [] = some net0 ∧ net0.length = 4 ∧ built_net net0 ∧
      (∀ w ∈ net0, w.size = 16777216) ∧ net0.map (fun w => w.value 0) = [0, 0, 0, 0] := by
  obtain ⟨w0, hc0, hb0, hs0, hv0⟩ := construct_props [0, 1, 2, 3, 4, 5] (by decide) (by decide)
  obtain ⟨w1, hc1, hb1, hs1, hv1⟩ := construct_props [4, 5, 6, 7, 8, 9] (by decide) (by decide)
  obtain ⟨w2, hc2, hb2, hs2, hv2⟩ := construct_props [0, 1, 2, 4, 5, 6] (by decide) (by decide)
  obtain ⟨w3, hc3, hb3, hs3, hv3⟩ := construct_props [4, 5, 6, 8, 9, 10] (by decide) (by decide)
  refine ⟨[w0, w1, w2, w3], by simp only [init_weights, hc0, hc1, hc2, hc3, List.nil_append],
    rfl, ?_, ?_, by simp only [List.map_cons, List.map_nil, hv0, hv1, hv2, hv3]⟩
  · intro w hw
    simp only [List.mem_cons, List.mem_singleton, List.not_mem_nil, or_false] at hw
    rcases hw with rfl | rfl | rfl | rfl
    · exact ⟨[0, 1, 2, 3, 4, 5], by decide, by decide, hb0⟩
    · exact ⟨[4, 5, 6, 7, 8, 9], by decide, by decide, hb1⟩
    · exact ⟨[0, 1, 2, 4, 5, 6], by decide, by decide, hb2⟩
    · exact ⟨[4, 5, 6, 8, 9, 10], by decide, by decide, hb3⟩
  · intro w hw
    simp only [List.mem_cons, List.mem_singleton, List.not_mem_nil, or_false] at hw
    rcases hw with rfl | rfl | rfl | rfl
    · rw [hs0]; rfl
    · rw [hs1]; rfl
    · rw [hs2]; rfl
    · rw [hs3]; rfl

/-! ## Claim on restoring a network -/

/-- C15.  The network built by `init_weights` and updated once on the all-zero board with
`diff = 4` estimates that board at 256.  Saved with `save_weights` and restored with
`load_weights` into the empty network of a new agent, it has 4 tables again, but they
are default-constructed tables whose arrays were read back and whose isomorphic patterns
are missing: `estimate_board` returns 0 on every board and `weight_update` changes
nothing. -/
theorem load_after_save (float_bits : ℚ → Nat) (bits_float : Nat → ℚ) :
    ∃ net0 net1 r, init_weights [] = some net0 ∧
      weight_update net0 zero_board 4 = some (net1, r) ∧
      estimate_board net1 zero_board = some 256 ∧
      (load_weights float_bits bits_float (save_weights float_bits net1) []).length = 4 ∧
      (∀ b, estimate_board
        (load_weights float_bits bits_float (save_weights float_bits net1) []) b = some 0) ∧
      ∀ b diff, weight_update
          (load_weights float_bits bits_float (save_weights float_bits net1) []) b diff
        = some (load_weights float_bits bits_float (save_weights float_bits net1) [], 0) := by
  obtain ⟨net0, hinit, hlen, hbuilt, hsz, hval⟩ := init_weights_eq
  obtain ⟨net1, r, hu, hes, hsz1⟩ :=
    weight_update_loop_zero_board ((4 : ℚ) / (net0.length : ℚ)) net0 hbuilt 0
  have hlen1 : net1.length = 4 := by
    have := congrArg List.length hsz1
    simpa [hlen] using this
  have hsize1 : ∀ w ∈ net1, w.size < 2 ^ 62 := by
    intro w hw
    have hmem : w.size ∈ net1.map (fun w => w.size) := List.mem_map_of_mem _ hw
    rw [hsz1] at hmem
    obtain ⟨w0, hw0, heq⟩ := List.mem_map.1 hmem
    rw [← heq, hsz w0 hw0]
    norm_num
  have hiso := load_weights_isomorphism float_bits bits_float (save_weights float_bits net1)
  refine ⟨net0, net1, r, hinit, hu, ?_, ?_, ?_, ?_⟩
  · unfold estimate_board
    rw [estimate_board_loop_eq, hes]
    have hmap : (net0.map fun w => 8 * (w.value 0 + 8 * ((4 : ℚ) / (net0.length : ℚ))))
        = (net0.map fun w => w.value 0).map
            (fun v => 8 * (v + 8 * ((4 : ℚ) / (net0.length : ℚ)))) := by
      rw [List.map_map]; rfl
    rw [hmap, hval, hlen]
    norm_num
  · rw [load_weights_length float_bits bits_float net1 (by rw [hlen1]; norm_num) hsize1, hlen1]
  · intro b
    exact (no_isomorphism_loops b _ hiso).1 0
  · intro b diff
    exact (no_isomorphism_loops b _ hiso).2 _ 0

end TCG
